import Mathlib

/-!
Verification of the DIN8580 taxonomy builder
(`scripts/build_din8580_chart.py`).

The Python source is shallowly embedded below.  Pure helper functions
(`extract_fragment`, `humanize_fragment`, `extract_level_metadata`,
`parse_preferred_label`, `level_to_tuple`, `node_sort_key`) become Lean
functions over `List Char` / `String`; the XML document is modelled as a
list of class-element records; Python dicts become association lists that
preserve insertion order (re-assignment keeps the original position);
Python sets that are only tested for membership become lists; the one set
whose *iteration order* is observable (`children_by_parent[p]`, which is
sorted with a stable sort) is modelled by an explicit enumeration
parameter, since CPython's set iteration order is hash-dependent and not
a function of the inserted elements.

String operations are modelled on ASCII data: `str.lower`, `\w` and
whitespace sets are taken at their ASCII meaning, which agrees with
CPython on every string manipulated here.

The recursive renderer of `build_forest` is embedded with an explicit
fuel argument (so that everything stays executable); the development
proves that the fuel chosen by `build_forest` is always sufficient.
-/

/-! ### Character helpers (ASCII models of the Python primitives) -/

/-- ASCII model of the whitespace class used by `str.split`, `str.strip`
and the regex class `\s`. -/
def isPyWs (c : Char) : Bool :=
  c = ' ' || c = '\t' || c = '\n' || c = '\r' || c = '\x0b' || c = '\x0c'

/-- ASCII model of the regex word-character class `\w`
(used only through the word-boundary assertion `\b`). -/
def isWordChar (c : Char) : Bool :=
  c.isAlphanum || c = '_'

/-- ASCII model of `str.lower` on a single character. -/
def lcChar (c : Char) : Char := c.toLower

/-- `str.lower` on character data. -/
def lcList (cs : List Char) : List Char := cs.map lcChar

/-- `str.lower` on strings. -/
def pyLower (s : String) : String := String.mk (lcList s.data)

/-- `str.strip()` (ASCII whitespace). -/
def pyStrip (cs : List Char) : List Char :=
  ((cs.dropWhile isPyWs).reverse.dropWhile isPyWs).reverse

/-- `str.strip()` on strings. -/
def pyStripS (s : String) : String := String.mk (pyStrip s.data)

/-- `str.replace` for single characters, used by `humanize_fragment`. -/
def replChar (x y : Char) (cs : List Char) : List Char :=
  cs.map (fun c => if c = x then y else c)

/-! ### `extract_fragment` and `humanize_fragment` -/

/-- Everything after the last occurrence of `sep`; the whole list when
`sep` does not occur.  Models `s.rsplit(sep, 1)[-1]`. -/
def afterLast (sep : Char) : List Char → List Char
  | [] => []
  | c :: cs =>
    if c = sep && (cs.contains sep) = false then cs
    else if c = sep then afterLast sep cs
    else if cs.contains sep then afterLast sep cs
    else c :: cs

/-- `s.rstrip("/")`: drop all trailing slashes. -/
def rstripSlash (cs : List Char) : List Char :=
  (cs.reverse.dropWhile (fun c => c = '/')).reverse

/-- `extract_fragment` from the source: the part of the IRI after the
last `#`, otherwise the last path segment after stripping trailing
slashes. -/
def extract_fragment (iri : String) : String :=
  if iri.data.contains '#' then String.mk (afterLast '#' iri.data)
  else String.mk (afterLast '/' (rstripSlash iri.data))

/-- `humanize_fragment`: underscores to spaces, then strip. -/
def humanize_fragment (fragment : String) : String :=
  String.mk (pyStrip (replChar '_' ' ' fragment.data))

/-! ### The level-metadata parser

`extract_level_metadata` searches the whitespace-normalized comment for
the regex `\b(Hauptgruppe|Gruppe|Untergruppe)\s*([0-9]+(?:\.[0-9]+)*)\b`
(case-insensitive).  The matcher below reproduces the backtracking
behaviour of that pattern: leftmost match, alternatives in order, greedy
digit groups, and the single group-pop that the trailing `\b` can force.
-/

/-- One word of `s.split()` accumulation: split on whitespace runs. -/
def wordsAux (cur : List Char) : List Char → List (List Char)
  | [] => if cur.isEmpty then [] else [cur.reverse]
  | c :: cs =>
    if isPyWs c then
      if cur.isEmpty then wordsAux [] cs else cur.reverse :: wordsAux [] cs
    else wordsAux (c :: cur) cs

/-- Join words with single spaces. -/
def joinSp : List (List Char) → List Char
  | [] => []
  | [w] => w
  | w :: ws => w ++ ' ' :: joinSp ws

/-- `" ".join(comment.split())`. -/
def normalizeChars (cs : List Char) : List Char := joinSp (wordsAux [] cs)

/-- Case-insensitive literal match: `kw` is given in lowercase; returns
the rest of the input after the keyword on success. -/
def matchCI : List Char → List Char → Option (List Char)
  | [], rest => some rest
  | _ :: _, [] => none
  | k :: ks, c :: cs => if lcChar c = k then matchCI ks cs else none

/-- Maximal run of ASCII digits (`[0-9]+`, greedy). -/
def takeDigits : List Char → List Char × List Char
  | [] => ([], [])
  | c :: cs =>
    if c.isDigit then ((c :: (takeDigits cs).1), (takeDigits cs).2)
    else ([], c :: cs)

/-- Scanner for `(?:\.[0-9]+)*`.  `committed` holds all fully committed
groups except the last, `lastG` the last committed group (kept separate
because the trailing `\b` may force popping exactly one group), and
`mode` is `some g` while tentatively reading a group `g` (stored
reversed).  Returns `(committed, lastG, rest)`. -/
def groupsGo (committed lastG : List Char) (mode : Option (List Char)) :
    List Char → List Char × List Char × List Char
  | [] =>
    match mode with
    | none => (committed, lastG, [])
    | some g =>
      if g.any Char.isDigit then (committed ++ lastG, g.reverse, [])
      else (committed, lastG, g.reverse)
  | c :: cs =>
    match mode with
    | none =>
      if c = '.' then groupsGo committed lastG (some ['.']) cs
      else (committed, lastG, c :: cs)
    | some g =>
      if c.isDigit then groupsGo committed lastG (some (c :: g)) cs
      else if g.any Char.isDigit then
        if c = '.' then groupsGo (committed ++ lastG) g.reverse (some ['.']) cs
        else (committed ++ lastG, g.reverse, c :: cs)
      else (committed, lastG, g.reverse ++ c :: cs)

/-- The word-boundary `\b` after the digit run: end of input or a
non-word character. -/
def boundaryAfter : List Char → Bool
  | [] => true
  | c :: _ => !(isWordChar c)

/-- `[0-9]+(?:\.[0-9]+)*\b` with regex backtracking: greedy groups, and
when the final `\b` fails the last group is popped (after which the next
character is `.` and the boundary necessarily holds). -/
def matchNumber (cs : List Char) : Option (List Char × List Char) :=
  match takeDigits cs with
  | ([], _) => none
  | (d, r) =>
    let (committed, lastG, rest) := groupsGo [] [] none r
    if boundaryAfter rest then some (d ++ committed ++ lastG, rest)
    else if lastG.isEmpty then none
    else some (d ++ committed, lastG ++ rest)

/-- One alternative of the keyword alternation: the keyword (lowercase
literal), then `\s*`, then the digit-dot run. -/
def tryKw (kwLower : List Char) (canonical : String) (cs : List Char) :
    Option (String × String) :=
  match matchCI kwLower cs with
  | none => none
  | some rest =>
    match matchNumber (rest.dropWhile isPyWs) with
    | none => none
    | some (num, _) => some (String.mk num, canonical)

/-- The word-boundary `\b` before the keyword: start of input or a
non-word previous character (the keyword itself starts with a letter). -/
def boundaryBefore : Option Char → Bool
  | none => true
  | some c => !(isWordChar c)

/-- Attempt a match at the current position: `\b`, then the alternation
`Hauptgruppe|Gruppe|Untergruppe` in the pattern's order.  The canonical
capitalization is produced exactly as in the source (`group(1).lower()`
followed by the three-way dispatch). -/
def tryAt (prev : Option Char) (cs : List Char) : Option (String × String) :=
  if boundaryBefore prev then
    match tryKw "hauptgruppe".data "Hauptgruppe" cs with
    | some r => some r
    | none =>
      match tryKw "gruppe".data "Gruppe" cs with
      | some r => some r
      | none => tryKw "untergruppe".data "Untergruppe" cs
  else none

/-- `pattern.search`: leftmost successful position. -/
def searchLevel : Option Char → List Char → Option (String × String)
  | _, [] => none
  | prev, c :: cs =>
    match tryAt prev (c :: cs) with
    | some r => some r
    | none => searchLevel (some c) cs

/-- `extract_level_metadata` from the source: returns
`(level_number, level_type)`. -/
def extract_level_metadata (comment : String) : Option String × Option String :=
  let normalized := normalizeChars comment.data
  if normalized.isEmpty then (none, none)
  else
    match searchLevel none normalized with
    | none => (none, none)
    | some (num, ty) => (some num, some ty)

/-! ### Labels and nodes -/

/-- One `rdfs:label` element: its `xml:lang` attribute (absent
attributes read as `""` in the source via `or ""`) and its text
(`lbl.text`, which may be `None`). -/
structure LabelEl where
  lang : Option String
  text : Option String
deriving DecidableEq

/-- `(lbl.text or "").strip()`. -/
def lblStripped (l : LabelEl) : String := pyStripS (l.text.getD "")

/-- The first loop's guard: language is `de` (case-insensitively) and
the stripped text is non-empty. -/
def deNonblank (l : LabelEl) : Bool :=
  pyLower (l.lang.getD "") = "de" && lblStripped l ≠ ""

/-- The second loop's guard: the stripped text is non-empty. -/
def anyNonblank (l : LabelEl) : Bool := lblStripped l ≠ ""

/-- First pass of `parse_preferred_label`: first German non-blank label. -/
def firstDe : List LabelEl → Option String
  | [] => none
  | l :: ls => if deNonblank l then some (lblStripped l) else firstDe ls

/-- Second pass of `parse_preferred_label`: first non-blank label. -/
def firstNonblank : List LabelEl → Option String
  | [] => none
  | l :: ls => if anyNonblank l then some (lblStripped l) else firstNonblank ls

/-- `parse_preferred_label` from the source: two passes over the label
elements, then the humanized fragment. -/
def parse_preferred_label (labels : List LabelEl) (fallback_fragment : String) : String :=
  match firstDe labels with
  | some s => s
  | none =>
    match firstNonblank labels with
    | some s => s
    | none => humanize_fragment fallback_fragment

/-- The `NodeBase` dataclass. -/
structure NodeBase where
  id : String
  label : String
  raw_fragment : String
  level_number : Option String
  level_type : Option String
deriving DecidableEq

/-! ### The entity extractor (`parse_owl`)

The XML document is modelled as the list of `owl:Class` elements found
by `root.findall(class_xpath)`, each carrying its `rdf:about` attribute,
its `rdfs:label` children, the text of its first `rdfs:comment` child
(`None` when there is no such child or its text is `None`), and the
`rdf:resource` attributes of its `rdfs:subClassOf` children. -/
structure ClassEl where
  about : Option String
  labels : List LabelEl
  comment : Option String
  subRefs : List (Option String)
deriving DecidableEq

/-- Python dict assignment `m[k] = v`: updates in place when the key
exists (keeping its original position), appends otherwise. -/
def dictInsert (m : List (String × NodeBase)) (k : String) (v : NodeBase) :
    List (String × NodeBase) :=
  if m.any (fun kv => kv.1 = k) then
    m.map (fun kv => if kv.1 = k then (k, v) else kv)
  else m ++ [(k, v)]

/-- Key membership in the node dict. -/
def hasKey (m : List (String × NodeBase)) (k : String) : Bool :=
  m.any (fun kv => kv.1 = k)

/-- The node record built for one class element. -/
def mkNode (iri : String) (c : ClassEl) : NodeBase :=
  let fragment := extract_fragment iri
  let md := extract_level_metadata (c.comment.getD "")
  { id := iri
    label := parse_preferred_label c.labels fragment
    raw_fragment := fragment
    level_number := md.1
    level_type := md.2 }

/-- The raw edges contributed by one class element: one `(child, parent)`
pair per `rdfs:subClassOf` child whose `rdf:resource` is present and
non-empty (`if parent_iri:`). -/
def classRefs (iri : String) (c : ClassEl) : List (String × String) :=
  (c.subRefs.filterMap id).filterMap
    (fun p => if p = "" then none else some (iri, p))

/-- Main extraction loop of `parse_owl`, with the node dict and raw edge
list threaded as accumulators.  Class elements without a (truthy)
`rdf:about` are skipped. -/
def parse_owlAux : List ClassEl → List (String × NodeBase) → List (String × String) →
    List (String × NodeBase) × List (String × String)
  | [], nodes, edges => (nodes, edges)
  | c :: rest, nodes, edges =>
    match c.about with
    | none => parse_owlAux rest nodes edges
    | some iri =>
      if iri = "" then parse_owlAux rest nodes edges
      else parse_owlAux rest (dictInsert nodes iri (mkNode iri c)) (edges ++ classRefs iri c)

/-- `parse_owl` before the final edge filter: node dict and raw edges. -/
def parse_owlRaw (doc : List ClassEl) : List (String × NodeBase) × List (String × String) :=
  parse_owlAux doc [] []

/-- `parse_owl` from the source: the raw edges are filtered — after the
full extraction loop — to those whose two endpoints are known nodes. -/
def parse_owl (doc : List ClassEl) : List (String × NodeBase) × List (String × String) :=
  let (nodes, edges) := parse_owlRaw doc
  (nodes, edges.filter (fun e => hasKey nodes e.1 && hasKey nodes e.2))

/-! ### `level_to_tuple`, `node_sort_key` and Python's stable sort -/

/-- `s.split(".")` on character data (empty segments included). -/
def splitDotAux (cur : List Char) : List Char → List (List Char)
  | [] => [cur.reverse]
  | c :: cs => if c = '.' then cur.reverse :: splitDotAux [] cs else splitDotAux (c :: cur) cs

/-- Digit accumulation for `int(str)`, allowing single underscores
between digits as CPython does. -/
def digitsUnd (acc : Nat) : List Char → Option Nat
  | [] => some acc
  | ['_'] => none
  | '_' :: c :: cs =>
    if c.isDigit then digitsUnd (acc * 10 + (c.toNat - 48)) cs else none
  | c :: cs =>
    if c.isDigit then digitsUnd (acc * 10 + (c.toNat - 48)) cs else none

/-- `int(s)` after whitespace stripping: an optional sign followed by a
non-empty digit run.  (ASCII digits; other strings raise `ValueError`,
modelled as `none`.) -/
def pyIntCore : List Char → Option Int
  | [] => none
  | c :: cs =>
    if c.isDigit then (digitsUnd (c.toNat - 48) cs).map Int.ofNat else none

/-- Python `int(str)`. -/
def pyInt (cs : List Char) : Option Int :=
  match pyStrip cs with
  | '+' :: r => pyIntCore r
  | '-' :: r => (pyIntCore r).map Int.neg
  | r => pyIntCore r

/-- Sequence a list of options (`none` as soon as one entry is `none`). -/
def optSeq : List (Option α) → Option (List α)
  | [] => some []
  | none :: _ => none
  | some a :: os => (optSeq os).map (fun bs => a :: bs)

/-- `level_to_tuple` from `build_forest`: the level-number split on dots
and parsed as integers; missing, empty or unparsable level-numbers give
the sentinel `(10**9,)`. -/
def level_to_tuple (level : Option String) : List Int :=
  match level with
  | none => [1000000000]
  | some s =>
    if s = "" then [1000000000]
    else
      match optSeq ((splitDotAux [] s.data).map pyInt) with
      | some parts => parts
      | none => [1000000000]

/-- `node_sort_key` from `build_forest`. -/
def node_sort_key (n : NodeBase) : List Int × String × String :=
  (level_to_tuple n.level_number, pyLower n.label, pyLower n.raw_fragment)

/-- Lexicographic strict order on lists, given a strict order on the
elements (Python's `<` on tuples and on strings). -/
def lexLt (ltb : α → α → Bool) : List α → List α → Bool
  | [], [] => false
  | [], _ :: _ => true
  | _ :: _, [] => false
  | a :: s, b :: t => if ltb a b then true else if ltb b a then false else lexLt ltb s t

/-- Python `<` on characters: code-point comparison. -/
def charLtB (c d : Char) : Bool := decide (c.toNat < d.toNat)

/-- Python `<` on integers. -/
def intLtB (x y : Int) : Bool := decide (x < y)

/-- Python `<` on strings (code-point lexicographic). -/
def strLtB (a b : String) : Bool := lexLt charLtB a.data b.data

/-- Python `<` on integer tuples. -/
def intsLtB (a b : List Int) : Bool := lexLt intLtB a b

/-- Python `<` on pairs, given `<` on the components. -/
def pairLt (la : α → α → Bool) (lb : β → β → Bool) (x y : α × β) : Bool :=
  if la x.1 y.1 then true else if la y.1 x.1 then false else lb x.2 y.2

/-- Python `<` on the composite sort key
`(level tuple, lowercased label, lowercased fragment)`. -/
def keyLt : List Int × String × String → List Int × String × String → Bool :=
  pairLt intsLtB (pairLt strLtB strLtB)

/-- Stable insertion of `a` into `l`: `a` passes over strictly smaller
elements and lands before the first element not below it.  Combined with
`isortLt` this is a stable sort, hence it agrees with CPython's stable
`sorted`. -/
def sinsertLt (lt : α → α → Bool) (a : α) : List α → List α
  | [] => [a]
  | b :: bs => if lt b a then b :: sinsertLt lt a bs else a :: b :: bs

/-- Stable sort by the strict comparison `lt`; the model of Python's
`sorted`. -/
def isortLt (lt : α → α → Bool) : List α → List α
  | [] => []
  | x :: xs => sinsertLt lt x (isortLt lt xs)

/-! ### The forest builder (`build_forest`)

`children_by_parent` maps each parent to a *set* of children.  Only the
iteration order of these sets is implementation-defined in CPython
(hash-dependent); everything else in `build_forest` iterates dicts in
insertion order.  `build_forestOrd` therefore takes the per-parent
enumeration of the child sets as a parameter `ord`; `build_forest`
instantiates it with the first-insertion enumeration `childrenOf`.
A valid enumeration is any duplicate-free listing of the same child set
(`validOrd` below). -/

/-- Output tree node.  The Python dict carries a `"cycle": True` entry
exactly on cycle leaves; here every node carries a `cycle` flag, `true`
only on those leaves. -/
inductive TreeN where
  | mk (id label raw_fragment : String) (level_number level_type : Option String)
       (cycle : Bool) (children : List TreeN)

/-- Node identity of a tree node. -/
def TreeN.id : TreeN → String
  | .mk i _ _ _ _ _ _ => i

/-- Cycle flag of a tree node. -/
def TreeN.cycle : TreeN → Bool
  | .mk _ _ _ _ _ c _ => c

/-- Children of a tree node. -/
def TreeN.children : TreeN → List TreeN
  | .mk _ _ _ _ _ _ ch => ch

/-- `nodes[node_id]`: total model of the dict lookup.  In every use in
the source the key is present; missing keys get a junk record. -/
def lookupNode (nodes : List (String × NodeBase)) (node_id : String) : NodeBase :=
  match nodes.find? (fun kv => kv.1 = node_id) with
  | some kv => kv.2
  | none => { id := node_id, label := "", raw_fragment := "",
              level_number := none, level_type := none }

/-- `node_sort_key` as a strict comparison on node ids, used as the key
of every `sorted(...)` call in `build_forest`. -/
def ltNode (lk : String → NodeBase) (a b : String) : Bool :=
  keyLt (node_sort_key (lk a)) (node_sort_key (lk b))

/-- Duplicate removal keeping first occurrences (with an accumulator of
already-seen elements, so that the definition is structural). -/
def dedupFirstAux [DecidableEq α] (acc : List α) : List α → List α
  | [] => []
  | x :: xs =>
    if x ∈ acc then dedupFirstAux acc xs else x :: dedupFirstAux (x :: acc) xs

/-- Duplicate removal keeping first occurrences. -/
def dedupFirst [DecidableEq α] (l : List α) : List α := dedupFirstAux [] l

/-- The child set `children_by_parent[p]`, enumerated in first-insertion
order: children of `p` among the edges, deduplicated. -/
def childrenOf (edges : List (String × String)) (p : String) : List String :=
  dedupFirst ((edges.filter (fun e => e.2 = p)).map (fun e => e.1))

/-- `ord` enumerates, without duplicates, exactly the child set of every
parent. -/
def validOrd (edges : List (String × String)) (ord : String → List String) : Prop :=
  ∀ p, (ord p).Nodup ∧ ∀ x, x ∈ ord p ↔ x ∈ childrenOf edges p

/-- One step of `render`: the body of the recursive function, with the
recursive occurrence abstracted as `deeper`.  On a path hit the node is
emitted as a cycle leaf; otherwise its (pre-sorted) children are
rendered with the extended path.  The second component of the result is
the sequence of ids added to `seen` during this call (the source adds
`node_id` to the mutable `seen` set exactly on the non-cycle branch). -/
def renderStep (lk : String → NodeBase) (skids : String → List String)
    (deeper : String → List String → Option (TreeN × List String))
    (node_id : String) (path : List String) : Option (TreeN × List String) :=
  let n := lk node_id
  if node_id ∈ path then
    some (.mk n.id n.label n.raw_fragment n.level_number n.level_type true [], [])
  else
    match optSeq ((skids node_id).map (fun k => deeper k (node_id :: path))) with
    | none => none
    | some rs =>
      some (.mk n.id n.label n.raw_fragment n.level_number n.level_type false
              (rs.map (fun r => r.1)),
            node_id :: (rs.map (fun r => r.2)).flatten)

/-- The recursive `render`, with fuel.  `build_forest` always supplies
sufficient fuel (proved below), so the `none` case never occurs there. -/
def render (lk : String → NodeBase) (skids : String → List String) :
    Nat → String → List String → Option (TreeN × List String)
  | 0, _, _ => none
  | fuel + 1, node_id, path => renderStep lk skids (render lk skids fuel) node_id path

/-- `build_forest`, parameterized by the already-sorted child lists
(`skids p` is `sorted(children_by_parent[p], key=node_sort_key)`). -/
def build_forestWith (nodes : List (String × NodeBase)) (edges : List (String × String))
    (skids : String → List String) : Option (List TreeN × List String × Nat) :=
  let lk := lookupNode nodes
  let keys := nodes.map (fun kv => kv.1)
  let roots0 := keys.filter (fun node_id => !(edges.any (fun e => e.1 = node_id)))
  let roots := if roots0.isEmpty then isortLt (ltNode lk) keys else isortLt (ltNode lk) roots0
  let fuel := (dedupFirst (keys ++ edges.map (fun e => e.1))).length + 1
  match optSeq (roots.map (fun r => render lk skids fuel r [])) with
  | none => none
  | some rs =>
    some (rs.map (fun r => r.1),
          dedupFirst (rs.map (fun r => r.2)).flatten,
          (dedupFirst edges).length)

/-- `build_forest` for a given enumeration of the child sets. -/
def build_forestOrd (nodes : List (String × NodeBase)) (edges : List (String × String))
    (ord : String → List String) : Option (List TreeN × List String × Nat) :=
  build_forestWith nodes edges (fun p => isortLt (ltNode (lookupNode nodes)) (ord p))

/-- `build_forest` with the first-insertion enumeration of the child
sets.  Returns `(forest, seen, distinct edge count)`. -/
def build_forest (nodes : List (String × NodeBase)) (edges : List (String × String)) :
    Option (List TreeN × List String × Nat) :=
  build_forestOrd nodes edges (childrenOf edges)

/-! ### The `run` driver after parsing

`run` builds the forest, computes `missing = sorted(all_nodes - seen)`,
appends a reconciliation leaf for every missing node and then calls
`forest.sort(key=detached_sort_key)`.  `detached_sort_key` refers to
`level_to_tuple`, which is a local function of `build_forest` and is not
in scope inside `run`: as soon as at least one reconciliation leaf was
appended (so the sort evaluates its key function on a non-empty list),
the interpreter raises `NameError`.  Afterwards `run` writes the JSON
payload and only then checks for empty labels, raising `RuntimeError`
("Found empty labels after normalization...") when one exists. -/

/-- The ways `run` can abort after parsing. -/
inductive RunError where
  /-- `NameError: name 'level_to_tuple' is not defined`, raised by
  `forest.sort(key=detached_sort_key)` in the reconciliation branch. -/
  | nameError
  /-- `RuntimeError` from the empty-label validation post-pass. -/
  | validation
  /-- Fuel exhaustion of the embedded renderer (proved unreachable). -/
  | fuelOut
deriving DecidableEq

/-- The core of `run` after `parse_owl`: returns
`(node_count, edge_count, roots)` on success. -/
def run_core (nodes : List (String × NodeBase)) (edges : List (String × String)) :
    Except RunError (Nat × Nat × List TreeN) :=
  match build_forest nodes edges with
  | none => Except.error RunError.fuelOut
  | some (forest, seen, edge_count) =>
    let missing := isortLt strLtB ((nodes.map (fun kv => kv.1)).filter
      (fun i => !(seen.contains i)))
    if missing.isEmpty then
      if (nodes.map (fun kv => kv.2)).any (fun n => n.label = "") then
        Except.error RunError.validation
      else Except.ok (nodes.length, edge_count, forest)
    else Except.error RunError.nameError

/-! ### Facts about the stable sort -/

/-- Sortedness with respect to a strict comparison: no later element is
strictly below an earlier one. -/
def sortedByB (lt : α → α → Bool) (l : List α) : Prop :=
  l.Pairwise (fun p q => lt q p = false)

/-- Plain (case-sensitive) literal match at the head of a list. -/
def startsWithL : List Char → List Char → Bool
  | [], _ => true
  | _ :: _, [] => false
  | p :: ps, c :: cs => p = c && startsWithL ps cs

/-- Contiguous-substring test. -/
def containsSub (p : List Char) : List Char → Bool
  | [] => p.isEmpty
  | c :: cs => startsWithL p (c :: cs) || containsSub p cs

/-! ### The claims -/

/-- Input for claim C1: a root `R` plus a two-cycle `A ↔ B` that no root
reaches, so the reconciliation branch of `run` fires. -/
def bugNodes : List (String × NodeBase) :=
  [("R", { id := "R", label := "R", raw_fragment := "R",
           level_number := none, level_type := none }),
   ("A", { id := "A", label := "A", raw_fragment := "A",
           level_number := none, level_type := none }),
   ("B", { id := "B", label := "B", raw_fragment := "B",
           level_number := none, level_type := none })]

/-- Edges for claim C1: `A subClassOf B` and `B subClassOf A`. -/
def bugEdges : List (String × String) := [("A", "B"), ("B", "A")]

/-- Input for claim C2: the pure 3-cycle `A → B → C → A` (edges are
`(child, parent)` pairs: `A subClassOf B`, `B subClassOf C`,
`C subClassOf A`). -/
def cyNodes : List (String × NodeBase) :=
  [("A", { id := "A", label := "A", raw_fragment := "A",
           level_number := none, level_type := none }),
   ("B", { id := "B", label := "B", raw_fragment := "B",
           level_number := none, level_type := none }),
   ("C", { id := "C", label := "C", raw_fragment := "C",
           level_number := none, level_type := none })]

/-- Edges of the pure 3-cycle. -/
def cyEdges : List (String × String) := [("A", "B"), ("B", "C"), ("C", "A")]

/-- Cycle leaf of the first rendered tree. -/
def cyLeafA : TreeN := .mk "A" "A" "A" none none true []

/-- Inner nodes of the tree rooted at `A`. -/
def cyA_B : TreeN := .mk "B" "B" "B" none none false [cyLeafA]

/-- Inner node of the tree rooted at `A`. -/
def cyA_C : TreeN := .mk "C" "C" "C" none none false [cyA_B]

/-- The tree rooted at `A`. -/
def cyTreeA : TreeN := .mk "A" "A" "A" none none false [cyA_C]

/-- The tree rooted at `B`. -/
def cyTreeB : TreeN :=
  .mk "B" "B" "B" none none false
    [.mk "A" "A" "A" none none false
      [.mk "C" "C" "C" none none false
        [.mk "B" "B" "B" none none true []]]]

/-- The tree rooted at `C`. -/
def cyTreeC : TreeN :=
  .mk "C" "C" "C" none none false
    [.mk "B" "B" "B" none none false
      [.mk "A" "A" "A" none none false
        [.mk "C" "C" "C" none none true []]]]

/-- The forest built from the pure 3-cycle. -/
def cyForest : List TreeN := [cyTreeA, cyTreeB, cyTreeC]

/-- Input for claim C4: parent `P` with children `X` (level-number
`2000000000`, label `a`) and `Y` (no level-number, label `b`). -/
def c4Nodes : List (String × NodeBase) :=
  [("P", { id := "P", label := "p", raw_fragment := "P",
           level_number := none, level_type := none }),
   ("X", { id := "X", label := "a", raw_fragment := "X",
           level_number := some "2000000000", level_type := none }),
   ("Y", { id := "Y", label := "b", raw_fragment := "Y",
           level_number := none, level_type := none })]

/-- Edges for claim C4: `X` and `Y` are children of `P`. -/
def c4Edges : List (String × String) := [("X", "P"), ("Y", "P")]

/-- Input for the amended claim C4: three root nodes with level-numbers
`2`, `10` and none, and deliberately reversed label order. -/
def c4bNodes : List (String × NodeBase) :=
  [("N2", { id := "N2", label := "z", raw_fragment := "N2",
            level_number := some "2", level_type := none }),
   ("N10", { id := "N10", label := "y", raw_fragment := "N10",
             level_number := some "10", level_type := none }),
   ("NX", { id := "NX", label := "a", raw_fragment := "NX",
            level_number := none, level_type := none })]

/-- Witness node with a parseable level-number, for `claim_C4_witness`. -/
def c4wX : NodeBase :=
  { id := "X", label := "a", raw_fragment := "X",
    level_number := some "5", level_type := none }

/-- Witness node with no level-number, for `claim_C4_witness`. -/
def c4wY : NodeBase :=
  { id := "Y", label := "b", raw_fragment := "Y",
    level_number := none, level_type := none }

/-- Document for claim C6: class `A` declares `subClassOf` references to
`B` (declared *later* in the document) and to an undeclared class. -/
def c6Doc : List ClassEl :=
  [{ about := some "http://x#A", labels := [], comment := none,
     subRefs := [some "http://x#B", some "http://x#Unknown"] },
   { about := some "http://x#B", labels := [], comment := none, subRefs := [] }]

/-- Pre-context for the C6 witness. -/
def c6wPre : List ClassEl :=
  [{ about := some "http://x#A", labels := [], comment := none,
     subRefs := [some "http://x#B"] }]

/-- Class receiving an extra unknown reference in the C6 witness. -/
def c6wCls : ClassEl :=
  { about := some "http://x#B", labels := [], comment := none, subRefs := [] }

/-- Nodes for claim C7: root `R`, and a cycle `A ↔ B` in which `A` has
an empty label (as produced by an IRI whose fragment is only
underscores, e.g. `http://x#___`). -/
def valNodes : List (String × NodeBase) :=
  [("R", { id := "R", label := "R", raw_fragment := "R",
           level_number := none, level_type := none }),
   ("A", { id := "A", label := "", raw_fragment := "___",
           level_number := none, level_type := none }),
   ("B", { id := "B", label := "B", raw_fragment := "B",
           level_number := none, level_type := none })]

/-- Edges for claim C7: the cycle `A ↔ B`. -/
def valEdges : List (String × String) := [("A", "B"), ("B", "A")]

/-- Nodes with non-blank labels for the success case of claim C7. -/
def c7okNodes : List (String × NodeBase) :=
  [("R", { id := "R", label := "R", raw_fragment := "R",
           level_number := none, level_type := none }),
   ("A", { id := "A", label := "A", raw_fragment := "A",
           level_number := none, level_type := none }),
   ("B", { id := "B", label := "B", raw_fragment := "B",
           level_number := none, level_type := none })]

/-- Nodes for the C9 counterexample: the children `x1` and `x2` of `p`
have identical composite sort keys (same level tuple, same lowercased
label, same lowercased fragment) but distinct identities. -/
def c9Nodes : List (String × NodeBase) :=
  [("p", { id := "p", label := "p", raw_fragment := "p",
           level_number := none, level_type := none }),
   ("x1", { id := "x1", label := "same", raw_fragment := "n",
            level_number := none, level_type := none }),
   ("x2", { id := "x2", label := "same", raw_fragment := "n",
            level_number := none, level_type := none })]

/-- Edges for the C9 counterexample. -/
def c9Edges : List (String × String) := [("x1", "p"), ("x2", "p")]

/-- One enumeration order of the child set of `p`. -/
def c9OrdA : String → List String :=
  fun q => if q = "p" then ["x1", "x2"] else childrenOf c9Edges q

/-- The other enumeration order of the same child set. -/
def c9OrdB : String → List String :=
  fun q => if q = "p" then ["x2", "x1"] else childrenOf c9Edges q

/-- Nodes for the C9 witness: children `wa`/`wb` of `p` with distinct
labels, hence distinct composite keys. -/
def w9Nodes : List (String × NodeBase) :=
  [("p", { id := "p", label := "p", raw_fragment := "p",
           level_number := none, level_type := none }),
   ("wa", { id := "wa", label := "a", raw_fragment := "wa",
            level_number := none, level_type := none }),
   ("wb", { id := "wb", label := "b", raw_fragment := "wb",
            level_number := none, level_type := none })]

/-- Edges for the C9 witness. -/
def w9Edges : List (String × String) := [("wa", "p"), ("wb", "p")]

/-- One enumeration order for the C9 witness. -/
def w9OrdA : String → List String :=
  fun q => if q = "p" then ["wa", "wb"] else childrenOf w9Edges q

/-- The swapped enumeration order for the C9 witness. -/
def w9OrdB : String → List String :=
  fun q => if q = "p" then ["wb", "wa"] else childrenOf w9Edges q

/-! ### Order facts about the comparison functions -/

theorem lexLt_irrefl (ltb : α → α → Bool) (hIr : ∀ a, ltb a a = false) :
    ∀ l, lexLt ltb l l = false
  | [] => rfl
  | a :: s => by simp [lexLt, hIr a, lexLt_irrefl ltb hIr s]

theorem lexLt_asymm (ltb : α → α → Bool)
    (hAs : ∀ a b, ltb a b = true → ltb b a = true → False) :
    ∀ l m, lexLt ltb l m = true → lexLt ltb m l = true → False
  | [], [], h, _ => by simp [lexLt] at h
  | [], _ :: _, _, h' => by simp [lexLt] at h'
  | _ :: _, [], h, _ => by simp [lexLt] at h
  | a :: s, b :: t, h, h' => by
    by_cases hab : ltb a b = true <;> by_cases hba : ltb b a = true
    · exact hAs a b hab hba
    · simp [lexLt, hab, hba] at h'
    · simp [lexLt, hab, hba] at h
    · simp [lexLt, hab, hba] at h h'
      exact lexLt_asymm ltb hAs s t h h'

theorem lexLt_conn (ltb : α → α → Bool)
    (hCo : ∀ a b, ltb a b = false → ltb b a = false → a = b) :
    ∀ l m, lexLt ltb l m = false → lexLt ltb m l = false → l = m
  | [], [], _, _ => rfl
  | [], _ :: _, h, _ => by simp [lexLt] at h
  | _ :: _, [], _, h' => by simp [lexLt] at h'
  | a :: s, b :: t, h, h' => by
    by_cases hab : ltb a b = true
    · simp [lexLt, hab] at h
    · by_cases hba : ltb b a = true
      · simp [lexLt, hba] at h'
      · simp only [Bool.not_eq_true] at hab hba
        have he := hCo a b hab hba
        simp [lexLt, hab, hba] at h h'
        rw [he, lexLt_conn ltb hCo s t h h']

theorem lexLt_trans (ltb : α → α → Bool)
    (hAs : ∀ a b, ltb a b = true → ltb b a = true → False)
    (hTr : ∀ a b c, ltb a b = true → ltb b c = true → ltb a c = true)
    (hCo : ∀ a b, ltb a b = false → ltb b a = false → a = b) :
    ∀ l m n, lexLt ltb l m = true → lexLt ltb m n = true → lexLt ltb l n = true
  | [], [], _, h, _ => by simp [lexLt] at h
  | [], _ :: _, [], _, h' => by simp [lexLt] at h'
  | [], _ :: _, _ :: _, _, _ => by simp [lexLt]
  | _ :: _, [], _, h, _ => by simp [lexLt] at h
  | _ :: _, _ :: _, [], _, h' => by simp [lexLt] at h'
  | a :: s, b :: t, c :: u, h, h' => by
    by_cases hab : ltb a b = true <;> by_cases hbc : ltb b c = true
    · simp [lexLt, hTr a b c hab hbc]
    · by_cases hcb : ltb c b = true
      · simp [lexLt, hab, hbc, hcb] at h'
      · simp only [Bool.not_eq_true] at hbc hcb
        rw [hCo b c hbc hcb] at hab
        simp [lexLt, hab]
    · by_cases hba : ltb b a = true
      · simp [lexLt, hab, hba] at h
      · simp only [Bool.not_eq_true] at hab hba
        rw [← hCo a b hab hba] at hbc
        simp [lexLt, hbc]
    · by_cases hba : ltb b a = true
      · simp [lexLt, hab, hba] at h
      · by_cases hcb : ltb c b = true
        · simp [lexLt, hbc, hcb] at h'
        · simp only [Bool.not_eq_true] at hab hba hbc hcb
          have e1 := hCo a b hab hba
          subst e1
          simp [lexLt, hab, hbc, hcb] at h h' ⊢
          exact lexLt_trans ltb hAs hTr hCo s t u h h'

theorem pairLt_asymm (la : α → α → Bool) (lb : β → β → Bool)
    (hA : ∀ a b, la a b = true → la b a = true → False)
    (hB : ∀ a b, lb a b = true → lb b a = true → False) :
    ∀ x y, pairLt la lb x y = true → pairLt la lb y x = true → False := by
  intro x y h h'
  by_cases h1 : la x.1 y.1 = true <;> by_cases h2 : la y.1 x.1 = true
  · exact hA _ _ h1 h2
  · simp [pairLt, h1, h2] at h'
  · simp [pairLt, h1, h2] at h
  · simp [pairLt, h1, h2] at h h'
    exact hB _ _ h h'

theorem pairLt_conn (la : α → α → Bool) (lb : β → β → Bool)
    (hA : ∀ a b, la a b = false → la b a = false → a = b)
    (hB : ∀ a b, lb a b = false → lb b a = false → a = b) :
    ∀ x y, pairLt la lb x y = false → pairLt la lb y x = false → x = y := by
  intro x y h h'
  by_cases h1 : la x.1 y.1 = true
  · simp [pairLt, h1] at h
  · by_cases h2 : la y.1 x.1 = true
    · simp [pairLt, h2] at h'
    · simp only [Bool.not_eq_true] at h1 h2
      simp [pairLt, h1, h2] at h h'
      have e1 := hA _ _ h1 h2
      have e2 := hB _ _ h h'
      exact Prod.ext e1 e2

theorem pairLt_trans (la : α → α → Bool) (lb : β → β → Bool)
    (hAi : ∀ a, la a a = false)
    (hAt : ∀ a b c, la a b = true → la b c = true → la a c = true)
    (hAc : ∀ a b, la a b = false → la b a = false → a = b)
    (hBt : ∀ a b c, lb a b = true → lb b c = true → lb a c = true) :
    ∀ x y z, pairLt la lb x y = true → pairLt la lb y z = true → pairLt la lb x z = true := by
  intro x y z h h'
  by_cases h1 : la x.1 y.1 = true <;> by_cases h2 : la y.1 z.1 = true
  · simp [pairLt, hAt _ _ _ h1 h2]
  · by_cases h3 : la z.1 y.1 = true
    · simp [pairLt, h2, h3] at h'
    · simp only [Bool.not_eq_true] at h2 h3
      have e := hAc _ _ h2 h3
      rw [e] at h1
      simp [pairLt, h1]
  · by_cases h3 : la y.1 x.1 = true
    · simp [pairLt, h1, h3] at h
    · simp only [Bool.not_eq_true] at h1 h3
      have e := hAc _ _ h1 h3
      rw [← e] at h2
      simp [pairLt, h2]
  · by_cases h3 : la y.1 x.1 = true
    · simp [pairLt, h1, h3] at h
    · by_cases h4 : la z.1 y.1 = true
      · simp [pairLt, h2, h4] at h'
      · simp only [Bool.not_eq_true] at h1 h2 h3 h4
        have e1 := hAc _ _ h1 h3
        have e2 := hAc _ _ h2 h4
        simp [pairLt, h1, h3] at h
        simp [pairLt, h2, h4] at h'
        have h5 : la x.1 z.1 = false := by rw [e1, e2]; exact hAi _
        have h6 : la z.1 x.1 = false := by rw [e1, e2]; exact hAi _
        simp [pairLt, h5, h6]
        exact hBt _ _ _ h h'

theorem pairLt_irrefl (la : α → α → Bool) (lb : β → β → Bool)
    (hA : ∀ a, la a a = false) (hB : ∀ b, lb b b = false) :
    ∀ x, pairLt la lb x x = false := by
  intro x; simp [pairLt, hA, hB]

theorem charLtB_irrefl (a : Char) : charLtB a a = false := by simp [charLtB]

theorem charLtB_asymm (a b : Char) (h : charLtB a b = true) (h' : charLtB b a = true) : False := by
  simp [charLtB] at h h'; omega

theorem charLtB_trans (a b c : Char) (h : charLtB a b = true) (h' : charLtB b c = true) :
    charLtB a c = true := by
  simp [charLtB] at h h' ⊢; omega

theorem charLtB_conn (a b : Char) (h : charLtB a b = false) (h' : charLtB b a = false) : a = b := by
  simp [charLtB] at h h'
  have ht : a.toNat = b.toNat := le_antisymm h' h
  exact Char.eq_of_val_eq (UInt32.toNat.inj ht)

theorem intLtB_irrefl (a : Int) : intLtB a a = false := by simp [intLtB]

theorem intLtB_asymm (a b : Int) (h : intLtB a b = true) (h' : intLtB b a = true) : False := by
  simp [intLtB] at h h'; omega

theorem intLtB_trans (a b c : Int) (h : intLtB a b = true) (h' : intLtB b c = true) :
    intLtB a c = true := by
  simp [intLtB] at h h' ⊢; omega

theorem intLtB_conn (a b : Int) (h : intLtB a b = false) (h' : intLtB b a = false) : a = b := by
  simp [intLtB] at h h'; omega

theorem intsLtB_irrefl : ∀ l, intsLtB l l = false :=
  lexLt_irrefl _ intLtB_irrefl

theorem intsLtB_asymm : ∀ l m, intsLtB l m = true → intsLtB m l = true → False :=
  lexLt_asymm _ intLtB_asymm

theorem intsLtB_trans : ∀ l m n, intsLtB l m = true → intsLtB m n = true → intsLtB l n = true :=
  lexLt_trans _ intLtB_asymm intLtB_trans intLtB_conn

theorem intsLtB_conn : ∀ l m, intsLtB l m = false → intsLtB m l = false → l = m :=
  lexLt_conn _ intLtB_conn

theorem strLtB_irrefl : ∀ s, strLtB s s = false :=
  fun s => lexLt_irrefl _ charLtB_irrefl s.data

theorem strLtB_asymm : ∀ a b, strLtB a b = true → strLtB b a = true → False :=
  fun a b h h' => lexLt_asymm _ charLtB_asymm a.data b.data h h'

theorem strLtB_trans : ∀ a b c, strLtB a b = true → strLtB b c = true → strLtB a c = true :=
  fun a b c h h' => lexLt_trans _ charLtB_asymm charLtB_trans charLtB_conn a.data b.data c.data h h'

theorem strLtB_conn : ∀ a b, strLtB a b = false → strLtB b a = false → a = b := by
  intro a b h h'
  have hd := lexLt_conn _ charLtB_conn a.data b.data h h'
  cases a; cases b
  exact congrArg String.mk hd

theorem keyLt_irrefl : ∀ k, keyLt k k = false :=
  pairLt_irrefl _ _ intsLtB_irrefl (pairLt_irrefl _ _ strLtB_irrefl strLtB_irrefl)

theorem keyLt_asymm : ∀ x y, keyLt x y = true → keyLt y x = true → False :=
  pairLt_asymm _ _ intsLtB_asymm (pairLt_asymm _ _ strLtB_asymm strLtB_asymm)

theorem keyLt_conn : ∀ x y, keyLt x y = false → keyLt y x = false → x = y :=
  pairLt_conn _ _ intsLtB_conn (pairLt_conn _ _ strLtB_conn strLtB_conn)

theorem keyLt_trans : ∀ x y z, keyLt x y = true → keyLt y z = true → keyLt x z = true :=
  pairLt_trans _ _ intsLtB_irrefl intsLtB_trans intsLtB_conn
    (pairLt_trans _ _ strLtB_irrefl strLtB_trans strLtB_conn strLtB_trans)

theorem keyLt_negtrans (x y z : List Int × String × String)
    (hyx : keyLt y x = false) (hzy : keyLt z y = false) : keyLt z x = false := by
  cases h : keyLt z x
  · rfl
  · exfalso
    cases hyz : keyLt y z
    · have e := keyLt_conn y z hyz hzy
      rw [← e] at h
      rw [h] at hyx
      cases hyx
    · have := keyLt_trans y z x hyz h
      rw [this] at hyx
      cases hyx

theorem ltNode_asymm (lk : String → NodeBase) (a b : String) :
    ltNode lk a b = true → ltNode lk b a = true → False :=
  keyLt_asymm _ _

theorem ltNode_negtrans (lk : String → NodeBase) (a b c : String)
    (h : ltNode lk b a = false) (h' : ltNode lk c b = false) : ltNode lk c a = false :=
  keyLt_negtrans _ _ _ h h'

theorem sinsert_perm (lt : α → α → Bool) (a : α) :
    ∀ l, List.Perm (sinsertLt lt a l) (a :: l)
  | [] => List.Perm.refl _
  | b :: bs => by
    by_cases h : lt b a = true
    · simpa [sinsertLt, h] using ((sinsert_perm lt a bs).cons b).trans (List.Perm.swap a b bs)
    · simp [sinsertLt, h]

theorem isort_perm (lt : α → α → Bool) : ∀ l, List.Perm (isortLt lt l) l
  | [] => List.Perm.refl _
  | x :: xs => (sinsert_perm lt x (isortLt lt xs)).trans ((isort_perm lt xs).cons x)

theorem mem_isort (lt : α → α → Bool) (x : α) (l : List α) :
    x ∈ isortLt lt l ↔ x ∈ l :=
  (isort_perm lt l).mem_iff

theorem sinsert_sorted (lt : α → α → Bool)
    (hAs : ∀ a b, lt a b = true → lt b a = true → False)
    (hNt : ∀ a b c, lt b a = false → lt c b = false → lt c a = false)
    (a : α) : ∀ l, sortedByB lt l → sortedByB lt (sinsertLt lt a l)
  | [], _ => by simp [sortedByB, sinsertLt]
  | b :: bs, hs => by
    simp only [sortedByB, List.pairwise_cons] at hs
    by_cases h : lt b a = true
    · have hab : lt a b = false := by
        cases hab : lt a b
        · rfl
        · exact absurd (hAs a b hab h) (fun f => f)
      simp only [sinsertLt, h, if_pos]
      simp only [sortedByB, List.pairwise_cons]
      constructor
      · intro c hc
        rcases List.mem_cons.mp ((sinsert_perm lt a bs).mem_iff.mp hc) with hc | hc
        · rw [hc]; exact hab
        · exact hs.1 c hc
      · exact sinsert_sorted lt hAs hNt a bs hs.2
    · simp only [Bool.not_eq_true] at h
      simp only [sinsertLt, h, Bool.false_eq_true, if_false]
      simp only [sortedByB, List.pairwise_cons]
      refine ⟨fun c hc => ?_, hs.1, hs.2⟩
      rcases List.mem_cons.mp hc with hc | hc
      · rw [hc]; exact h
      · exact hNt a b c h (hs.1 c hc)

theorem isort_sorted (lt : α → α → Bool)
    (hAs : ∀ a b, lt a b = true → lt b a = true → False)
    (hNt : ∀ a b c, lt b a = false → lt c b = false → lt c a = false) :
    ∀ l, sortedByB lt (isortLt lt l)
  | [] => by simp [sortedByB, isortLt]
  | x :: xs => sinsert_sorted lt hAs hNt x _ (isort_sorted lt hAs hNt xs)

/-- Two sorted lists with the same elements, on which the comparison has
no ties between distinct elements, are equal. -/
theorem sorted_perm_eq (lt : α → α → Bool) :
    ∀ l₁ l₂, List.Perm l₁ l₂ → sortedByB lt l₁ → sortedByB lt l₂ →
      (∀ a b, a ∈ l₁ → b ∈ l₁ → lt a b = false → lt b a = false → a = b) → l₁ = l₂
  | [], l₂, hp, _, _, _ => hp.nil_eq
  | _ :: _, [], hp, _, _, _ => by
    exact absurd hp.length_eq (by simp)
  | a :: t₁, b :: t₂, hp, hs₁, hs₂, hti => by
    simp only [sortedByB, List.pairwise_cons] at hs₁ hs₂
    have hab : a = b := by
      have ha2 : a ∈ b :: t₂ := hp.mem_iff.mp (List.mem_cons_self a t₁)
      rcases List.mem_cons.mp ha2 with h | h
      · exact h
      · have hb1 : b ∈ a :: t₁ := hp.mem_iff.mpr (List.mem_cons_self b t₂)
        rcases List.mem_cons.mp hb1 with h' | h'
        · exact h'.symm
        · exact hti a b (List.mem_cons_self a t₁) (List.mem_cons.mpr (Or.inr h'))
            (hs₂.1 a h) (hs₁.1 b h')
    subst hab
    have hp' : List.Perm t₁ t₂ := hp.cons_inv
    have ht : t₁ = t₂ :=
      sorted_perm_eq lt t₁ t₂ hp' hs₁.2 hs₂.2
        (fun x y hx hy h h' =>
          hti x y (List.mem_cons.mpr (Or.inr hx)) (List.mem_cons.mpr (Or.inr hy)) h h')
    rw [ht]

/-! ### Facts about deduplication, option sequencing and the renderer -/

theorem mem_dedupFirstAux [DecidableEq α] :
    ∀ (l acc : List α) (x : α), x ∈ dedupFirstAux acc l ↔ x ∈ l ∧ x ∉ acc
  | [], acc, x => by simp [dedupFirstAux]
  | y :: l, acc, x => by
    by_cases hy : y ∈ acc
    · simp only [dedupFirstAux, hy, if_pos]
      rw [mem_dedupFirstAux l acc x]
      constructor
      · exact fun h => ⟨List.mem_cons.mpr (Or.inr h.1), h.2⟩
      · rintro ⟨h1, h2⟩
        rcases List.mem_cons.mp h1 with h | h
        · exact absurd (h ▸ hy) h2
        · exact ⟨h, h2⟩
    · simp only [dedupFirstAux, hy, if_neg, not_false_iff, List.mem_cons]
      rw [mem_dedupFirstAux l (y :: acc) x]
      constructor
      · rintro (h | ⟨h1, h2⟩)
        · exact ⟨Or.inl h, h ▸ hy⟩
        · exact ⟨Or.inr h1, fun hx => h2 (List.mem_cons.mpr (Or.inr hx))⟩
      · rintro ⟨h1, h2⟩
        by_cases hxy : x = y
        · exact Or.inl hxy
        · rcases h1 with h | h
          · exact absurd h hxy
          · exact Or.inr ⟨h, fun hx => by
              rcases List.mem_cons.mp hx with h' | h'
              · exact hxy h'
              · exact h2 h'⟩

theorem mem_dedupFirst [DecidableEq α] (l : List α) (x : α) :
    x ∈ dedupFirst l ↔ x ∈ l := by
  rw [dedupFirst, mem_dedupFirstAux]
  simp

theorem nodup_dedupFirstAux [DecidableEq α] :
    ∀ (l acc : List α), (dedupFirstAux acc l).Nodup
  | [], _ => by simp [dedupFirstAux]
  | y :: l, acc => by
    by_cases hy : y ∈ acc
    · simp only [dedupFirstAux, hy, if_pos]
      exact nodup_dedupFirstAux l acc
    · simp only [dedupFirstAux, hy, if_neg, not_false_iff]
      refine List.nodup_cons.mpr ⟨?_, nodup_dedupFirstAux l (y :: acc)⟩
      intro hmem
      exact ((mem_dedupFirstAux l (y :: acc) y).mp hmem).2 (List.mem_cons_self y acc)

theorem nodup_dedupFirst [DecidableEq α] (l : List α) : (dedupFirst l).Nodup :=
  nodup_dedupFirstAux l []

theorem optSeq_isSome : ∀ l : List (Option α), (∀ o ∈ l, o.isSome = true) →
    ∃ bs, optSeq l = some bs
  | [], _ => ⟨[], rfl⟩
  | o :: os, h => by
    obtain ⟨a, ha⟩ := Option.isSome_iff_exists.mp (h o (List.mem_cons_self o os))
    obtain ⟨bs, hbs⟩ := optSeq_isSome os (fun x hx => h x (List.mem_cons.mpr (Or.inr hx)))
    exact ⟨a :: bs, by rw [ha]; simp [optSeq, hbs]⟩

theorem filter_imp_length_le (p q : α → Bool) (hpq : ∀ x, q x = true → p x = true) :
    ∀ U : List α, (U.filter q).length ≤ (U.filter p).length
  | [] => Nat.le_refl _
  | u :: U => by
    by_cases hq : q u = true
    · simp only [List.filter_cons, hq, hpq u hq, if_pos, List.length_cons]
      exact Nat.succ_le_succ (filter_imp_length_le p q hpq U)
    · simp only [List.filter_cons, hq, if_neg, not_false_iff, Bool.false_eq_true]
      by_cases hp : p u = true
      · simp only [hp, if_pos, List.length_cons]
        exact Nat.le_succ_of_le (filter_imp_length_le p q hpq U)
      · simp only [hp, Bool.false_eq_true, if_neg, not_false_iff]
        exact filter_imp_length_le p q hpq U

theorem filter_path_cons_lt [DecidableEq α] (a : α) (path : List α) :
    ∀ U : List α, a ∈ U → a ∉ path →
      (U.filter (fun x => decide (x ∉ a :: path))).length <
        (U.filter (fun x => decide (x ∉ path))).length := by
  intro U
  induction U with
  | nil => intro h; exact absurd h (List.not_mem_nil a)
  | cons u U ih =>
    intro hu hp
    have hmono : ∀ x : α, decide (x ∉ a :: path) = true → decide (x ∉ path) = true := by
      intro x hx
      simp only [decide_eq_true_eq] at hx ⊢
      exact fun h => hx (List.mem_cons.mpr (Or.inr h))
    by_cases hua : u = a
    · subst hua
      have h1 : decide (u ∉ u :: path) = false := by simp
      have h2 : decide (u ∉ path) = true := by simpa using hp
      simp only [List.filter_cons, h1, h2, Bool.false_eq_true, if_neg, not_false_iff, if_pos,
        List.length_cons]
      exact Nat.lt_succ_of_le (filter_imp_length_le _ _ hmono U)
    · have hu' : a ∈ U := by
        rcases List.mem_cons.mp hu with h | h
        · exact absurd h.symm hua
        · exact h
      by_cases hq : decide (u ∉ a :: path) = true
      · simp only [List.filter_cons, hq, hmono u hq, if_pos, List.length_cons]
        exact Nat.succ_lt_succ (ih hu' hp)
      · have hq2 : decide (u ∉ path) = false := by
          simp only [decide_eq_true_eq, Decidable.not_not] at hq
          simp only [decide_eq_false_iff_not, Decidable.not_not]
          rcases List.mem_cons.mp hq with h | h
          · exact absurd h hua
          · exact h
        simp only [List.filter_cons, hq, hq2, Bool.false_eq_true, if_neg, not_false_iff]
        exact ih hu' hp

theorem render_isSome (lk : String → NodeBase) (skids : String → List String)
    (U : List String) (hsk : ∀ p k, k ∈ skids p → k ∈ U) :
    ∀ fuel id path, id ∈ U →
      (U.filter (fun x => decide (x ∉ path))).length < fuel →
      (render lk skids fuel id path).isSome = true := by
  intro fuel
  induction fuel with
  | zero => intro id path _ h; omega
  | succ fuel ih =>
    intro id path hid hlt
    rw [render, renderStep]
    by_cases hmem : id ∈ path
    · simp [hmem]
    · simp only [hmem, if_neg, not_false_iff]
      obtain ⟨bs, hbs⟩ := optSeq_isSome ((skids id).map (fun k => render lk skids fuel k (id :: path)))
        (by
          intro o ho
          rcases List.mem_map.mp ho with ⟨k, hk, rfl⟩
          apply ih k (id :: path) (hsk id k hk)
          have h1 := filter_path_cons_lt id path U hid hmem
          omega)
      rw [hbs]
      simp

theorem renderRoots_some (lk : String → NodeBase) (skids : String → List String)
    (roots U : List String) (fuel : Nat)
    (hsk : ∀ p k, k ∈ skids p → k ∈ U)
    (hroots : ∀ r ∈ roots, r ∈ U)
    (hfuel : U.length < fuel) :
    ∃ rs, optSeq (roots.map (fun r => render lk skids fuel r [])) = some rs := by
  apply optSeq_isSome
  intro o ho
  rcases List.mem_map.mp ho with ⟨r, hr, rfl⟩
  apply render_isSome lk skids U hsk fuel r [] (hroots r hr)
  have : (U.filter (fun x => decide (x ∉ ([] : List String)))) = U := by
    apply List.filter_eq_self.mpr
    intro a _
    simp
  rw [this]
  exact hfuel

theorem build_forestWith_some (nodes : List (String × NodeBase)) (edges : List (String × String))
    (skids : String → List String)
    (hsk : ∀ p k, k ∈ skids p → k ∈ edges.map (fun e => e.1)) :
    ∃ f s, build_forestWith nodes edges skids = some (f, s, (dedupFirst edges).length) := by
  have hU : ∀ p k, k ∈ skids p →
      k ∈ dedupFirst (nodes.map (fun kv => kv.1) ++ edges.map (fun e => e.1)) := by
    intro p k hk
    rw [mem_dedupFirst]
    exact List.mem_append.mpr (Or.inr (hsk p k hk))
  have hroots : ∀ r ∈ (if ((nodes.map (fun kv => kv.1)).filter
        (fun node_id => !(edges.any (fun e => e.1 = node_id)))).isEmpty
      then isortLt (ltNode (lookupNode nodes)) (nodes.map (fun kv => kv.1))
      else isortLt (ltNode (lookupNode nodes)) ((nodes.map (fun kv => kv.1)).filter
        (fun node_id => !(edges.any (fun e => e.1 = node_id))))),
      r ∈ dedupFirst (nodes.map (fun kv => kv.1) ++ edges.map (fun e => e.1)) := by
    intro r hr
    rw [mem_dedupFirst]
    apply List.mem_append.mpr
    left
    by_cases he : ((nodes.map (fun kv => kv.1)).filter
        (fun node_id => !(edges.any (fun e => e.1 = node_id)))).isEmpty
    · rw [if_pos he] at hr
      exact (mem_isort _ r _).mp hr
    · rw [if_neg he] at hr
      exact List.mem_of_mem_filter ((mem_isort _ r _).mp hr)
  obtain ⟨rs, hrs⟩ := renderRoots_some (lookupNode nodes) skids _
    (dedupFirst (nodes.map (fun kv => kv.1) ++ edges.map (fun e => e.1)))
    ((dedupFirst (nodes.map (fun kv => kv.1) ++ edges.map (fun e => e.1))).length + 1)
    hU hroots (Nat.lt_succ_self _)
  refine ⟨rs.map (fun r => r.1), dedupFirst (rs.map (fun r => r.2)).flatten, ?_⟩
  rw [build_forestWith]
  rw [hrs]

theorem mem_childrenOf (edges : List (String × String)) (p x : String) :
    x ∈ childrenOf edges p ↔ (x, p) ∈ edges := by
  rw [childrenOf, mem_dedupFirst]
  constructor
  · intro h
    rcases List.mem_map.mp h with ⟨e, he, rfl⟩
    have hf := List.mem_filter.mp he
    have he2 : e.2 = p := by simpa using hf.2
    have : e = (e.1, p) := by rw [← he2]
    rw [← this]
    exact hf.1
  · intro h
    exact List.mem_map.mpr ⟨(x, p), List.mem_filter.mpr ⟨h, by simp⟩, rfl⟩

theorem nodup_childrenOf (edges : List (String × String)) (p : String) :
    (childrenOf edges p).Nodup :=
  nodup_dedupFirst _

theorem childrenOf_validOrd (edges : List (String × String)) :
    validOrd edges (childrenOf edges) :=
  fun p => ⟨nodup_childrenOf edges p, fun _ => Iff.rfl⟩

theorem build_forestOrd_some (nodes : List (String × NodeBase)) (edges : List (String × String))
    (ord : String → List String)
    (hord : ∀ p k, k ∈ ord p → k ∈ childrenOf edges p) :
    ∃ f s, build_forestOrd nodes edges ord = some (f, s, (dedupFirst edges).length) := by
  apply build_forestWith_some
  intro p k hk
  have h1 : k ∈ ord p := (mem_isort _ k _).mp hk
  have h2 : (k, p) ∈ edges := (mem_childrenOf edges p k).mp (hord p k h1)
  exact List.mem_map.mpr ⟨(k, p), h2, rfl⟩

theorem build_forest_some (nodes : List (String × NodeBase)) (edges : List (String × String)) :
    ∃ f s, build_forest nodes edges = some (f, s, (dedupFirst edges).length) :=
  build_forestOrd_some nodes edges (childrenOf edges) (fun _ _ h => h)

/-- Core of the determinism analysis: for tie-free child sets, the
sorted child lists do not depend on the enumeration order of the set. -/
theorem isort_ord_eq (lk : String → NodeBase) (edges : List (String × String))
    (ord₁ ord₂ : String → List String)
    (h₁ : validOrd edges ord₁) (h₂ : validOrd edges ord₂)
    (hinj : ∀ p a b, a ∈ childrenOf edges p → b ∈ childrenOf edges p →
      node_sort_key (lk a) = node_sort_key (lk b) → a = b)
    (p : String) :
    isortLt (ltNode lk) (ord₁ p) = isortLt (ltNode lk) (ord₂ p) := by
  have hperm0 : List.Perm (ord₁ p) (ord₂ p) := by
    apply (List.perm_ext_iff_of_nodup (h₁ p).1 (h₂ p).1).mpr
    intro a
    rw [(h₁ p).2 a, (h₂ p).2 a]
  have hperm : List.Perm (isortLt (ltNode lk) (ord₁ p)) (isortLt (ltNode lk) (ord₂ p)) :=
    ((isort_perm _ _).trans hperm0).trans (isort_perm _ _).symm
  apply sorted_perm_eq (ltNode lk) _ _ hperm
    (isort_sorted _ (ltNode_asymm lk) (fun a b c => ltNode_negtrans lk a b c) _)
    (isort_sorted _ (ltNode_asymm lk) (fun a b c => ltNode_negtrans lk a b c) _)
  intro a b ha hb hab hba
  have ha' : a ∈ childrenOf edges p := ((h₁ p).2 a).mp ((mem_isort _ a _).mp ha)
  have hb' : b ∈ childrenOf edges p := ((h₁ p).2 b).mp ((mem_isort _ b _).mp hb)
  exact hinj p a b ha' hb' (keyLt_conn _ _ hab hba)

/-- Tie-free inputs make the whole forest builder independent of the
set-enumeration order. -/
theorem build_forestOrd_eq (nodes : List (String × NodeBase)) (edges : List (String × String))
    (ord₁ ord₂ : String → List String)
    (h₁ : validOrd edges ord₁) (h₂ : validOrd edges ord₂)
    (hinj : ∀ p a b, a ∈ childrenOf edges p → b ∈ childrenOf edges p →
      node_sort_key (lookupNode nodes a) = node_sort_key (lookupNode nodes b) → a = b) :
    build_forestOrd nodes edges ord₁ = build_forestOrd nodes edges ord₂ := by
  rw [build_forestOrd, build_forestOrd]
  have : (fun p => isortLt (ltNode (lookupNode nodes)) (ord₁ p)) =
      (fun p => isortLt (ltNode (lookupNode nodes)) (ord₂ p)) :=
    funext (isort_ord_eq (lookupNode nodes) edges ord₁ ord₂ h₁ h₂ hinj)
  rw [this]

/-! ### Facts about the level-metadata matcher -/

theorem takeDigits_digits : ∀ cs : List Char, (takeDigits cs).1.all Char.isDigit = true
  | [] => rfl
  | c :: cs => by
    by_cases h : c.isDigit = true
    · simp only [takeDigits, h, if_pos, List.all_cons, Bool.and_eq_true]
      exact ⟨trivial, takeDigits_digits cs⟩
    · simp [takeDigits, h]

theorem groupsGo_all (p : Char → Bool) (hdot : p '.' = true)
    (hdig : ∀ c, c.isDigit = true → p c = true) :
    ∀ (cs committed lastG : List Char) (mode : Option (List Char)),
      committed.all p = true → lastG.all p = true →
      (∀ g, mode = some g → g.all p = true) →
      (groupsGo committed lastG mode cs).1.all p = true ∧
        (groupsGo committed lastG mode cs).2.1.all p = true
  | [], committed, lastG, mode, hc, hl, hm => by
    match mode with
    | none => exact ⟨hc, hl⟩
    | some g =>
      by_cases hd : g.any Char.isDigit = true
      · simp only [groupsGo, hd, if_pos]
        constructor
        · simp only [List.all_append, Bool.and_eq_true]
          exact ⟨hc, hl⟩
        · rw [List.all_reverse]
          exact hm g rfl
      · simp only [groupsGo, hd, Bool.false_eq_true, if_neg, not_false_iff]
        exact ⟨hc, hl⟩
  | c :: cs, committed, lastG, mode, hc, hl, hm => by
    match mode with
    | none =>
      by_cases hdot' : c = '.'
      · simp only [groupsGo, hdot', if_pos]
        exact groupsGo_all p hdot hdig cs committed lastG (some ['.']) hc hl
          (by
            intro g hg
            injection hg with hg
            rw [← hg]
            simp only [List.all_cons, List.all_nil, Bool.and_true]
            exact hdot)
      · simp only [groupsGo, hdot', if_neg, not_false_iff]
        exact ⟨hc, hl⟩
    | some g =>
      by_cases hcd : c.isDigit = true
      · simp only [groupsGo, hcd, if_pos]
        exact groupsGo_all p hdot hdig cs committed lastG (some (c :: g)) hc hl
          (by
            intro g' hg'
            injection hg' with hg'
            rw [← hg']
            simp only [List.all_cons, Bool.and_eq_true]
            exact ⟨hdig c hcd, hm g rfl⟩)
      · by_cases hgd : g.any Char.isDigit = true
        · by_cases hcdot : c = '.'
          · simp only [groupsGo, hcd, Bool.false_eq_true, if_neg, not_false_iff, hgd, if_pos,
              hcdot]
            exact groupsGo_all p hdot hdig cs (committed ++ lastG) g.reverse (some ['.'])
              (by
                simp only [List.all_append, Bool.and_eq_true]
                exact ⟨hc, hl⟩)
              (by rw [List.all_reverse]; exact hm g rfl)
              (by
                intro g' hg'
                injection hg' with hg'
                rw [← hg']
                simp only [List.all_cons, List.all_nil, Bool.and_true]
                exact hdot)
          · simp only [groupsGo, hcd, Bool.false_eq_true, if_neg, not_false_iff, hgd, if_pos,
              hcdot]
            constructor
            · simp only [List.all_append, Bool.and_eq_true]
              exact ⟨hc, hl⟩
            · rw [List.all_reverse]
              exact hm g rfl
        · simp only [groupsGo, hcd, Bool.false_eq_true, if_neg, not_false_iff, hgd]
          exact ⟨hc, hl⟩

theorem matchNumber_shape (cs num rest : List Char)
    (h : matchNumber cs = some (num, rest)) :
    num ≠ [] ∧ num.all (fun ch => ch.isDigit || ch = '.') = true := by
  unfold matchNumber at h
  split at h
  · cases h
  · rename_i d r hne htd
    have hgo := groupsGo_all (fun ch => ch.isDigit || ch = '.') (by simp)
      (fun ch hch => by simp [hch]) r [] [] none rfl rfl (by intro g hg'; cases hg')
    have hda : d.all Char.isDigit = true := by
      have := takeDigits_digits cs
      rw [htd] at this
      exact this
    have hdp : d.all (fun ch => ch.isDigit || ch = '.') = true := by
      rw [List.all_eq_true] at hda ⊢
      intro ch hch
      simp [hda ch hch]
    rcases hg : groupsGo [] [] none r with ⟨com, rest2⟩
    rcases rest2 with ⟨lastG, rest'⟩
    rw [hg] at h hgo
    simp only at h hgo
    have hdne : d ≠ [] := by simpa using hne
    split at h
    · injection h with h1
      injection h1 with h1 h2
      rw [← h1]
      constructor
      · intro hnil
        exact hdne (List.append_eq_nil.mp (List.append_eq_nil.mp hnil).1).1
      · simp only [List.all_append, Bool.and_eq_true]
        exact ⟨⟨hdp, hgo.1⟩, hgo.2⟩
    · split at h
      · cases h
      · injection h with h1
        injection h1 with h1 h2
        rw [← h1]
        constructor
        · intro hnil
          exact hdne (List.append_eq_nil.mp hnil).1
        · simp only [List.all_append, Bool.and_eq_true]
          exact ⟨hdp, hgo.1⟩

theorem tryKw_some (kw : List Char) (canon : String) (cs : List Char) (r : String × String)
    (h : tryKw kw canon cs = some r) :
    r.2 = canon ∧ r.1 ≠ "" ∧ r.1.data.all (fun ch => ch.isDigit || ch = '.') = true := by
  unfold tryKw at h
  split at h
  · cases h
  · rename_i rest hmc
    split at h
    · cases h
    · rename_i num rest2 hmn
      injection h with h1
      rw [← h1]
      have hsh := matchNumber_shape _ _ _ hmn
      refine ⟨rfl, ?_, hsh.2⟩
      intro hs
      apply hsh.1
      simpa using congrArg String.data hs

theorem tryKw_matchCI (kw : List Char) (canon : String) (cs : List Char) (r : String × String)
    (h : tryKw kw canon cs = some r) : (matchCI kw cs).isSome = true := by
  unfold tryKw at h
  split at h
  · cases h
  · rename_i rest hmc
    rw [hmc]
    rfl

theorem tryAt_midword (c : Char) (cs : List Char) (hc : isWordChar c = true) :
    tryAt (some c) cs = none := by
  simp [tryAt, boundaryBefore, hc]

theorem tryAt_some_shape (prev : Option Char) (cs : List Char) (r : String × String)
    (h : tryAt prev cs = some r) :
    (r.2 = "Hauptgruppe" ∨ r.2 = "Gruppe" ∨ r.2 = "Untergruppe") ∧
      r.1 ≠ "" ∧ r.1.data.all (fun ch => ch.isDigit || ch = '.') = true := by
  unfold tryAt at h
  split at h
  · split at h
    · rename_i r1 hkw
      injection h with h1
      rw [← h1]
      have := tryKw_some _ _ _ _ hkw
      exact ⟨Or.inl this.1, this.2⟩
    · split at h
      · rename_i r2 hkw
        injection h with h1
        rw [← h1]
        have := tryKw_some _ _ _ _ hkw
        exact ⟨Or.inr (Or.inl this.1), this.2⟩
      · have := tryKw_some _ _ _ _ h
        exact ⟨Or.inr (Or.inr this.1), this.2⟩
  · cases h

theorem tryAt_some_matchCI (prev : Option Char) (cs : List Char) (r : String × String)
    (h : tryAt prev cs = some r) :
    (matchCI "hauptgruppe".data cs).isSome = true ∨
      (matchCI "gruppe".data cs).isSome = true ∨
      (matchCI "untergruppe".data cs).isSome = true := by
  unfold tryAt at h
  split at h
  · split at h
    · rename_i r1 hkw
      exact Or.inl (tryKw_matchCI _ _ _ _ hkw)
    · split at h
      · rename_i r2 hkw
        exact Or.inr (Or.inl (tryKw_matchCI _ _ _ _ hkw))
      · exact Or.inr (Or.inr (tryKw_matchCI _ _ _ _ h))
  · cases h

theorem tryAt_unter (prev : Option Char) (cs : List Char) (r : String × String)
    (hu : (matchCI "untergruppe".data cs).isSome = true)
    (h : tryAt prev cs = some r) : r.2 = "Untergruppe" := by
  obtain ⟨c, cs', rfl, hc⟩ : ∃ c cs', cs = c :: cs' ∧ lcChar c = 'u' := by
    cases cs with
    | nil =>
      rw [(rfl : "untergruppe".data = 'u' :: "ntergruppe".data)] at hu
      simp [matchCI] at hu
    | cons c cs' =>
      refine ⟨c, cs', rfl, ?_⟩
      rw [(rfl : "untergruppe".data = 'u' :: "ntergruppe".data)] at hu
      by_contra hne
      simp [matchCI, hne] at hu
  have hh : matchCI "hauptgruppe".data (c :: cs') = none := by
    rw [(rfl : "hauptgruppe".data = 'h' :: "auptgruppe".data)]
    have : lcChar c ≠ 'h' := by rw [hc]; decide
    simp [matchCI, this]
  have hg : matchCI "gruppe".data (c :: cs') = none := by
    rw [(rfl : "gruppe".data = 'g' :: "ruppe".data)]
    have : lcChar c ≠ 'g' := by rw [hc]; decide
    simp [matchCI, this]
  have e1 : tryKw "hauptgruppe".data "Hauptgruppe" (c :: cs') = none := by
    unfold tryKw
    rw [hh]
  have e2 : tryKw "gruppe".data "Gruppe" (c :: cs') = none := by
    unfold tryKw
    rw [hg]
  unfold tryAt at h
  rw [e1, e2] at h
  by_cases hb : boundaryBefore prev = true
  · rw [if_pos hb] at h
    simp only [] at h
    exact (tryKw_some _ _ _ _ h).1
  · rw [if_neg hb] at h
    cases h

theorem searchLevel_some_shape :
    ∀ (prev : Option Char) (cs : List Char) (r : String × String),
      searchLevel prev cs = some r →
      (r.2 = "Hauptgruppe" ∨ r.2 = "Gruppe" ∨ r.2 = "Untergruppe") ∧
        r.1 ≠ "" ∧ r.1.data.all (fun ch => ch.isDigit || ch = '.') = true
  | _, [], _, h => by cases h
  | prev, c :: cs, r, h => by
    unfold searchLevel at h
    split at h
    · rename_i r1 hta
      injection h with h1
      rw [← h1]
      exact tryAt_some_shape _ _ _ hta
    · exact searchLevel_some_shape (some c) cs r h

theorem startsWithL_append : ∀ p t : List Char, startsWithL p (p ++ t) = true
  | [], _ => rfl
  | p :: ps, t => by simp [startsWithL, startsWithL_append ps t]

theorem containsSub_of_startsWith (p : List Char) :
    ∀ (pre l : List Char), startsWithL p l = true → containsSub p (pre ++ l) = true
  | [], l, h => by
    cases l with
    | nil =>
      cases p with
      | nil => rfl
      | cons q qs => cases h
    | cons c cs => simp [containsSub, h]
  | c :: pre, l, h => by
    simp only [List.cons_append, containsSub, Bool.or_eq_true]
    exact Or.inr (containsSub_of_startsWith p pre l h)

theorem matchCI_lc : ∀ (kw cs rest : List Char), matchCI kw cs = some rest →
    lcList cs = kw ++ lcList rest
  | [], cs, rest, h => by
    injection h with h1
    rw [h1]
    rfl
  | k :: ks, [], rest, h => by cases h
  | k :: ks, c :: cs, rest, h => by
    by_cases hk : lcChar c = k
    · simp only [matchCI, hk, if_pos] at h
      have := matchCI_lc ks cs rest h
      simp only [lcList, List.map_cons] at this ⊢
      rw [this, hk]
      rfl
    · simp [matchCI, hk] at h

theorem searchLevel_contains :
    ∀ (prev : Option Char) (cs : List Char) (r : String × String),
      searchLevel prev cs = some r →
      containsSub "gruppe".data (lcList cs) = true
  | _, [], _, h => by cases h
  | prev, c :: cs, r, h => by
    unfold searchLevel at h
    split at h
    · rename_i r1 hta
      rcases tryAt_some_matchCI _ _ _ hta with hm | hm | hm
      · obtain ⟨rest, hrest⟩ := Option.isSome_iff_exists.mp hm
        have := matchCI_lc _ _ _ hrest
        have e : "hauptgruppe".data = "haupt".data ++ "gruppe".data := by decide
        rw [this, e, List.append_assoc]
        exact containsSub_of_startsWith _ _ _ (startsWithL_append _ _)
      · obtain ⟨rest, hrest⟩ := Option.isSome_iff_exists.mp hm
        have := matchCI_lc _ _ _ hrest
        rw [this]
        exact containsSub_of_startsWith _ [] _ (startsWithL_append _ _)
      · obtain ⟨rest, hrest⟩ := Option.isSome_iff_exists.mp hm
        have := matchCI_lc _ _ _ hrest
        have e : "untergruppe".data = "unter".data ++ "gruppe".data := by decide
        rw [this, e, List.append_assoc]
        exact containsSub_of_startsWith _ _ _ (startsWithL_append _ _)
    · have ih := searchLevel_contains (some c) cs r h
      simp only [lcList, List.map_cons, containsSub, Bool.or_eq_true]
      right
      exact ih

theorem extract_some_shape (c n t : String)
    (h : extract_level_metadata c = (some n, some t)) :
    (t = "Hauptgruppe" ∨ t = "Gruppe" ∨ t = "Untergruppe") ∧
      n ≠ "" ∧ n.data.all (fun ch => ch.isDigit || ch = '.') = true := by
  unfold extract_level_metadata at h
  dsimp only [] at h
  split at h
  · cases h
  · split at h
    · cases h
    · rename_i num ty hs
      injection h with h1 h2
      injection h1 with h1
      injection h2 with h2
      rw [← h1, ← h2]
      exact searchLevel_some_shape none _ _ hs

theorem extract_no_keyword (c : String)
    (h : containsSub "gruppe".data (lcList (normalizeChars c.data)) = false) :
    extract_level_metadata c = (none, none) := by
  unfold extract_level_metadata
  dsimp only []
  split
  · rfl
  · rename_i hne
    cases hs : searchLevel none (normalizeChars c.data) with
    | none => rfl
    | some r =>
      have := searchLevel_contains none _ r hs
      rw [this] at h
      cases h

/-! ### Facts about the entity extractor -/

theorem parse_owlAux_nodes_indep :
    ∀ (doc : List ClassEl) (nodes : List (String × NodeBase)) (e₁ e₂ : List (String × String)),
      (parse_owlAux doc nodes e₁).1 = (parse_owlAux doc nodes e₂).1
  | [], _, _, _ => rfl
  | c :: rest, nodes, e₁, e₂ => by
    cases hab : c.about with
    | none =>
      simp only [parse_owlAux, hab]
      exact parse_owlAux_nodes_indep rest nodes e₁ e₂
    | some iri =>
      by_cases hi : iri = ""
      · simp only [parse_owlAux, hab, hi, if_pos]
        exact parse_owlAux_nodes_indep rest nodes e₁ e₂
      · simp only [parse_owlAux, hab, hi, if_neg, not_false_iff]
        exact parse_owlAux_nodes_indep rest _ _ _

theorem parse_owlAux_edges_acc :
    ∀ (doc : List ClassEl) (nodes : List (String × NodeBase)) (e : List (String × String)),
      (parse_owlAux doc nodes e).2 = e ++ (parse_owlAux doc nodes []).2
  | [], _, e => by simp [parse_owlAux]
  | c :: rest, nodes, e => by
    cases hab : c.about with
    | none =>
      simp only [parse_owlAux, hab]
      exact parse_owlAux_edges_acc rest nodes e
    | some iri =>
      by_cases hi : iri = ""
      · simp only [parse_owlAux, hab, hi, if_pos]
        exact parse_owlAux_edges_acc rest nodes e
      · simp only [parse_owlAux, hab, hi, if_neg, not_false_iff]
        rw [parse_owlAux_edges_acc rest _ (e ++ classRefs iri c),
          parse_owlAux_edges_acc rest _ ([] ++ classRefs iri c)]
        simp [List.append_assoc]

theorem parse_owlAux_append :
    ∀ (d₁ d₂ : List ClassEl) (nodes : List (String × NodeBase)) (e : List (String × String)),
      parse_owlAux (d₁ ++ d₂) nodes e =
        parse_owlAux d₂ (parse_owlAux d₁ nodes e).1 (parse_owlAux d₁ nodes e).2
  | [], _, _, _ => rfl
  | c :: d₁, d₂, nodes, e => by
    cases hab : c.about with
    | none =>
      simp only [List.cons_append, parse_owlAux, hab]
      exact parse_owlAux_append d₁ d₂ nodes e
    | some iri =>
      by_cases hi : iri = ""
      · simp only [List.cons_append, parse_owlAux, hab, hi, if_pos]
        exact parse_owlAux_append d₁ d₂ nodes e
      · simp only [List.cons_append, parse_owlAux, hab, hi, if_neg, not_false_iff]
        exact parse_owlAux_append d₁ d₂ _ _

theorem mkNode_subRefs_irrelevant (iri : String) (c : ClassEl) (refs : List (Option String)) :
    mkNode iri { c with subRefs := refs } = mkNode iri c := rfl

theorem classRefs_extra (iri : String) (c : ClassEl) (y : String) :
    classRefs iri { c with subRefs := c.subRefs ++ [some y] } =
      classRefs iri c ++ (if y = "" then [] else [(iri, y)]) := by
  unfold classRefs
  simp only [List.filterMap_append]
  by_cases hy : y = ""
  · simp [hy]
  · simp [hy]

theorem parse_owl_eq (doc : List ClassEl) :
    parse_owl doc = ((parse_owlRaw doc).1,
      (parse_owlRaw doc).2.filter
        (fun e => hasKey (parse_owlRaw doc).1 e.1 && hasKey (parse_owlRaw doc).1 e.2)) := by
  unfold parse_owl
  rcases parse_owlRaw doc with ⟨n, e⟩
  rfl

theorem parse_owl_extraRef (pre post : List ClassEl) (c : ClassEl) (y : String)
    (hy : hasKey (parse_owl (pre ++ c :: post)).1 y = false) :
    parse_owl (pre ++ { c with subRefs := c.subRefs ++ [some y] } :: post) =
      parse_owl (pre ++ c :: post) := by
  set c' : ClassEl := { c with subRefs := c.subRefs ++ [some y] } with hc'
  have hraw : ∀ cl : ClassEl,
      parse_owlRaw (pre ++ cl :: post) =
        parse_owlAux (cl :: post) (parse_owlAux pre [] []).1 (parse_owlAux pre [] []).2 :=
    fun cl => parse_owlAux_append pre (cl :: post) [] []
  have hab' : c'.about = c.about := by rw [hc']
  have hlb' : c'.labels = c.labels := by rw [hc']
  have hcm' : c'.comment = c.comment := by rw [hc']
  have hsr' : c'.subRefs = c.subRefs ++ [some y] := by rw [hc']
  cases hab : c.about with
  | none =>
    have hre : parse_owlRaw (pre ++ c' :: post) = parse_owlRaw (pre ++ c :: post) := by
      rw [hraw, hraw]
      simp only [parse_owlAux, hab' , hab]
    rw [parse_owl_eq, parse_owl_eq, hre]
  | some iri =>
    have habi : c'.about = some iri := by rw [hab', hab]
    by_cases hi : iri = ""
    · have hre : parse_owlRaw (pre ++ c' :: post) = parse_owlRaw (pre ++ c :: post) := by
        rw [hraw, hraw]
        simp only [parse_owlAux, habi, hab, hi, if_pos]
      rw [parse_owl_eq, parse_owl_eq, hre]
    · have hmk : mkNode iri c' = mkNode iri c := by
        unfold mkNode
        rw [hlb', hcm']
      have hcr : classRefs iri c' = classRefs iri c ++ (if y = "" then [] else [(iri, y)]) := by
        unfold classRefs
        rw [hsr']
        simp only [List.filterMap_append]
        by_cases hyy : y = ""
        · simp [hyy]
        · simp [hyy]
      by_cases hy' : y = ""
      · have hre : parse_owlRaw (pre ++ c' :: post) = parse_owlRaw (pre ++ c :: post) := by
          rw [hraw, hraw]
          simp only [parse_owlAux, habi, hab, hi, if_neg, not_false_iff]
          rw [hmk, hcr, hy']
          simp
        rw [parse_owl_eq, parse_owl_eq, hre]
      · have hN : (parse_owlRaw (pre ++ c' :: post)).1 =
            (parse_owlRaw (pre ++ c :: post)).1 := by
          rw [hraw, hraw]
          simp only [parse_owlAux, habi, hab, hi, if_neg, not_false_iff]
          rw [hmk]
          exact parse_owlAux_nodes_indep post _ _ _
        have hE' : (parse_owlRaw (pre ++ c' :: post)).2 =
            (parse_owlAux pre [] []).2 ++ classRefs iri c ++ [(iri, y)] ++
              (parse_owlAux post
                (dictInsert (parse_owlAux pre [] []).1 iri (mkNode iri c)) []).2 := by
          rw [hraw]
          simp only [parse_owlAux, habi, hab, hi, if_neg, not_false_iff]
          rw [hmk, hcr]
          rw [if_neg hy']
          rw [parse_owlAux_edges_acc post _ _]
          simp [List.append_assoc]
        have hE : (parse_owlRaw (pre ++ c :: post)).2 =
            (parse_owlAux pre [] []).2 ++ classRefs iri c ++
              (parse_owlAux post
                (dictInsert (parse_owlAux pre [] []).1 iri (mkNode iri c)) []).2 := by
          rw [hraw]
          simp only [parse_owlAux, hab, hi, if_neg, not_false_iff]
          rw [parse_owlAux_edges_acc post _ _]
        rw [parse_owl_eq, parse_owl_eq, hN, hE', hE]
        have hyn : hasKey (parse_owlRaw (pre ++ c :: post)).1 y = false := by
          rw [parse_owl_eq] at hy
          exact hy
        have hfy : List.filter (fun e => hasKey (parse_owlRaw (pre ++ c :: post)).1 e.1 &&
            hasKey (parse_owlRaw (pre ++ c :: post)).1 e.2) [(iri, y)] = [] := by
          simp only [List.filter, hyn, Bool.and_false]
        simp only [List.filter_append, hfy]
        simp

/-! ### Facts about label selection -/

theorem firstDe_eq_find : ∀ labels : List LabelEl,
    firstDe labels = (labels.find? deNonblank).map lblStripped
  | [] => rfl
  | l :: ls => by
    by_cases h : deNonblank l = true
    · rw [firstDe, if_pos h, List.find?_cons_of_pos _ h]
      rfl
    · rw [firstDe, if_neg (by simpa using h), List.find?_cons_of_neg _ (by simpa using h)]
      exact firstDe_eq_find ls

theorem firstNonblank_eq_find : ∀ labels : List LabelEl,
    firstNonblank labels = (labels.find? anyNonblank).map lblStripped
  | [] => rfl
  | l :: ls => by
    by_cases h : anyNonblank l = true
    · rw [firstNonblank, if_pos h, List.find?_cons_of_pos _ h]
      rfl
    · rw [firstNonblank, if_neg (by simpa using h), List.find?_cons_of_neg _ (by simpa using h)]
      exact firstNonblank_eq_find ls

/-- C1: the claim asserts that after rendering, the unreached identities
are appended as reconciliation leaves, the combined top level is
re-sorted by the composite key, and the run completes without error.
The code violates this: `detached_sort_key` refers to `level_to_tuple`,
which is local to `build_forest`, so `forest.sort` raises `NameError`
whenever at least one reconciliation leaf was appended.  On the input
`N = {R, A, B}`, `E = {(A,B), (B,A)}` the tree-walk reaches only `R`
(the `A ↔ B` cycle has no entry point), the leaves for `A` and `B` are
appended, and the sort then crashes. -/
theorem claim_C1 :
    run_core bugNodes bugEdges = Except.error RunError.nameError ∧
    (build_forest bugNodes bugEdges).map
      (fun r => (r.2.1.contains "A", r.2.1.contains "B", r.2.1.contains "R")) =
      some (false, false, true) :=
  ⟨rfl, rfl⟩

/-- C2: on the pure 3-cycle with no external root the builder
terminates, loses none of `A`, `B`, `C` (each is in the output and in
the seen set), falls back to treating all three nodes as roots, and at
least one rendered node carries `cycle = true` with no children. -/
theorem claim_C2 :
    build_forest cyNodes cyEdges = some (cyForest, ["A", "C", "B"], 3) ∧
    cyForest.map TreeN.id = ["A", "B", "C"] ∧
    ("A" ∈ (["A", "C", "B"] : List String) ∧ "B" ∈ (["A", "C", "B"] : List String) ∧
      "C" ∈ (["A", "C", "B"] : List String)) ∧
    (∃ t ∈ cyForest, ∃ u ∈ t.children, ∃ v ∈ u.children, ∃ w ∈ v.children,
      w.cycle = true ∧ w.children = []) := by
  refine ⟨rfl, rfl, by decide, ?_⟩
  refine ⟨cyTreeA, List.mem_cons_self _ _, cyA_C, List.mem_cons_self _ _,
    cyA_B, List.mem_cons_self _ _, cyLeafA, List.mem_cons_self _ _, rfl, rfl⟩

/-- C3: the Level Metadata Parser never classifies an occurrence of
`Untergruppe` as a match of `Gruppe` (no match starts inside a word, and
a match starting at an `Untergruppe` occurrence is classified
`Untergruppe`), canonicalizes the keyword casing to exactly
`Hauptgruppe`/`Gruppe`/`Untergruppe`, returns a non-empty digit-dot
sequence, yields the two documented concrete results, and returns
`(None, None)` for any comment not containing the (case-insensitive)
substring `gruppe`, hence for any comment containing none of the three
keywords. -/
theorem claim_C3 :
    (∀ (c : Char) (cs : List Char), isWordChar c = true → tryAt (some c) cs = none) ∧
    (∀ (prev : Option Char) (cs : List Char) (r : String × String),
        (matchCI "untergruppe".data cs).isSome = true → tryAt prev cs = some r →
        r.2 = "Untergruppe") ∧
    (∀ c n t : String, extract_level_metadata c = (some n, some t) →
        (t = "Hauptgruppe" ∨ t = "Gruppe" ∨ t = "Untergruppe") ∧ n ≠ "" ∧
          n.data.all (fun ch => ch.isDigit || ch = '.') = true) ∧
    extract_level_metadata "siehe Untergruppe 5.1.2 für Details" =
      (some "5.1.2", some "Untergruppe") ∧
    extract_level_metadata "Gruppe 3" = (some "3", some "Gruppe") ∧
    (∀ c : String, containsSub "gruppe".data (lcList (normalizeChars c.data)) = false →
        extract_level_metadata c = (none, none)) :=
  ⟨tryAt_midword, tryAt_unter, extract_some_shape, by decide, by decide, extract_no_keyword⟩

/-- C3 witness: the hypotheses of `claim_C3` discharged at concrete
inputs — a match cannot start just after the word character `r` (as in
the interior of `Untergruppe`), a match at an `untergruppe ...` prefix
is classified `Untergruppe`, the parse of `"Gruppe 3"` has the
canonical shape, and a keyword-free comment parses to `(none, none)`. -/
theorem claim_C3_witness :
    tryAt (some 'r') "gruppe 5".data = none ∧
    (("5", "Untergruppe") : String × String).2 = "Untergruppe" ∧
    (("Gruppe" = "Hauptgruppe" ∨ "Gruppe" = "Gruppe" ∨ "Gruppe" = "Untergruppe") ∧
      ("3" : String) ≠ "" ∧
      ("3" : String).data.all (fun ch => ch.isDigit || ch = '.') = true) ∧
    extract_level_metadata "keine Ebene" = (none, none) :=
  ⟨claim_C3.1 'r' "gruppe 5".data (by decide),
   claim_C3.2.1 none "untergruppe 5".data ("5", "Untergruppe") (by decide) (by decide),
   claim_C3.2.2.1 "Gruppe 3" "3" "Gruppe" (by decide),
   claim_C3.2.2.2.2.2 "keine Ebene" (by decide)⟩

/-- C4 counterexample: the claim says a node whose level-number is
absent always sorts last among its siblings, but the sentinel is the
finite tuple `(10**9,)`: the sibling `X` with the parseable level-number
`2000000000` (&gt; 10**9) sorts *after* the unleveled `Y`, so the
unleveled node is not last. -/
theorem claim_C4_counterexample :
    (build_forest c4Nodes c4Edges).map
      (fun r => r.1.map (fun t => t.children.map TreeN.id)) = some [["Y", "X"]] ∧
    (lookupNode c4Nodes "Y").level_number = none ∧
    level_to_tuple (lookupNode c4Nodes "X").level_number = [2000000000] := by
  refine ⟨rfl, rfl, by decide⟩

/-- C4 (amended): siblings and roots are sorted by the composite key
with numeric-tuple comparison; an absent or unparsable level-number maps
to the sentinel tuple `(10**9,)`, so such a node sorts after every
sibling whose tuple is strictly below the sentinel (not unconditionally
last); in particular `"2"`, `"10"`, none order as 2, 10, unleveled
regardless of label order, and `"2"` precedes `"10"` numerically even
though `"10" < "2"` as strings. -/
theorem claim_C4_amended :
    (∀ a b : NodeBase, intsLtB (level_to_tuple a.level_number) [1000000000] = true →
        level_to_tuple b.level_number = [1000000000] →
        keyLt (node_sort_key a) (node_sort_key b) = true) ∧
    (build_forest c4bNodes []).map (fun r => r.1.map TreeN.id) =
      some ["N2", "N10", "NX"] ∧
    intsLtB (level_to_tuple (some "2")) (level_to_tuple (some "10")) = true ∧
    strLtB "10" "2" = true := by
  refine ⟨?_, rfl, by decide, by decide⟩
  intro a b h1 h2
  simp only [keyLt, pairLt, node_sort_key, h2]
  rw [if_pos h1]

/-- C4 witness: the general sentinel-ordering part of
`claim_C4_amended` applied to a node with level `5` and an unleveled
node. -/
theorem claim_C4_witness :
    keyLt (node_sort_key c4wX) (node_sort_key c4wY) = true :=
  claim_C4_amended.1 c4wX c4wY (by decide) (by decide)

/-- C5: label choice follows the priority (1) first non-blank label
whose language is `de` case-insensitively, (2) first non-blank label of
any language, (3) humanized fragment; and a node with no labels and
identity `http://example.org/onto#Hot_Forming` gets label
`"Hot Forming"`.  A label with language `DE` counts as German. -/
theorem claim_C5 :
    (∀ (labels : List LabelEl) (fb : String),
        parse_preferred_label labels fb =
          (((labels.find? deNonblank).map lblStripped).getD
            (((labels.find? anyNonblank).map lblStripped).getD (humanize_fragment fb)))) ∧
    parse_preferred_label [] (extract_fragment "http://example.org/onto#Hot_Forming") =
      "Hot Forming" ∧
    parse_preferred_label
      [{ lang := some "EN", text := some "Forming" },
       { lang := some "DE", text := some " Urformen " }] "x" = "Urformen" := by
  refine ⟨?_, by decide, by decide⟩
  intro labels fb
  unfold parse_preferred_label
  rw [firstDe_eq_find, firstNonblank_eq_find]
  cases labels.find? deNonblank with
  | some l => rfl
  | none =>
    cases labels.find? anyNonblank with
    | some l => rfl
    | none => rfl

/-- C6: every edge surviving the filter has both endpoints among the
extracted nodes; the filter is applied against the node map of the
*full* extraction, so a raw edge whose endpoints are both (eventually)
declared is kept even when the parent is declared later; the forest
builder reports the number of distinct filtered edges; adding a
subclass reference to an unknown identity changes neither the node map
nor the filtered edge list (and hence neither the forest nor
`edge_count`); and on `c6Doc` the forward reference to `B` is kept while
the unknown reference is dropped. -/
theorem claim_C6 :
    (∀ doc : List ClassEl, ∀ e ∈ (parse_owl doc).2,
        hasKey (parse_owl doc).1 e.1 = true ∧ hasKey (parse_owl doc).1 e.2 = true) ∧
    (∀ doc : List ClassEl, ∀ e ∈ (parse_owlRaw doc).2,
        hasKey (parse_owl doc).1 e.1 = true → hasKey (parse_owl doc).1 e.2 = true →
        e ∈ (parse_owl doc).2) ∧
    (∀ doc : List ClassEl, ∃ f s,
        build_forest (parse_owl doc).1 (parse_owl doc).2 =
          some (f, s, (dedupFirst (parse_owl doc).2).length)) ∧
    (∀ (pre post : List ClassEl) (c : ClassEl) (y : String),
        hasKey (parse_owl (pre ++ c :: post)).1 y = false →
        parse_owl (pre ++ { c with subRefs := c.subRefs ++ [some y] } :: post) =
          parse_owl (pre ++ c :: post)) ∧
    (parse_owl c6Doc).2 = [("http://x#A", "http://x#B")] := by
  refine ⟨?_, ?_, ?_, parse_owl_extraRef, by decide⟩
  · intro doc e he
    rw [parse_owl_eq] at he ⊢
    have := (List.mem_filter.mp he).2
    simp only [Bool.and_eq_true] at this
    exact this
  · intro doc e he h1 h2
    rw [parse_owl_eq] at h1 h2 ⊢
    apply List.mem_filter.mpr
    refine ⟨he, ?_⟩
    simp only [Bool.and_eq_true]
    exact ⟨h1, h2⟩
  · intro doc
    exact build_forest_some _ _

/-- C6 witness: the hypotheses of `claim_C6` discharged concretely — the
forward edge `(A, B)` of `c6Doc` is kept by the filter, and appending a
reference to the unknown identity `http://x#Nope` leaves `parse_owl`
unchanged. -/
theorem claim_C6_witness :
    ("http://x#A", "http://x#B") ∈ (parse_owl c6Doc).2 ∧
    parse_owl (c6wPre ++ { c6wCls with subRefs := c6wCls.subRefs ++ [some "http://x#Nope"] } :: []) =
      parse_owl (c6wPre ++ c6wCls :: []) :=
  ⟨claim_C6.2.1 c6Doc ("http://x#A", "http://x#B") (by decide) (by decide) (by decide),
   claim_C6.2.2.2.1 c6wPre [] c6wCls "http://x#Nope" (by decide)⟩

/-- C7: the claim states the build run raises the empty-label validation
error if and only if some node has an empty label after the fallback
chain, raised after forest construction.  The validation check does sit
after forest construction and reconciliation, but it is *preempted*
whenever the reconciliation branch runs: on `valNodes`/`valEdges`, node
`A` has an empty label (its fragment `___` humanizes to the empty
string), yet the run dies with `NameError` in the reconciliation sort
before ever reaching the label check.  When no reconciliation is needed
the claimed behaviour holds: with the same nodes and no edges the run
raises the validation error, and with non-blank labels it succeeds. -/
theorem claim_C7 :
    (valNodes.map (fun kv => kv.2)).any (fun n => n.label = "") = true ∧
    run_core valNodes valEdges = Except.error RunError.nameError ∧
    run_core valNodes [] = Except.error RunError.validation ∧
    (mkNode "http://x#___"
      { about := some "http://x#___", labels := [], comment := none,
        subRefs := [] }).label = "" ∧
    run_core c7okNodes [] = Except.ok (3, 0,
      [.mk "A" "A" "A" none none false [],
       .mk "B" "B" "B" none none false [],
       .mk "R" "R" "R" none none false []]) := by
  refine ⟨by decide, rfl, rfl, by decide, rfl⟩

/-- C8 counterexample: the claim says level metadata is extracted only
when whitespace separates the keyword from the digit run, and never when
the digits abut the keyword.  The pattern uses `\s*` (zero or more), so
`"Gruppe3"` does extract metadata. -/
theorem claim_C8_counterexample :
    extract_level_metadata "Gruppe3" = (some "3", some "Gruppe") ∧
    extract_level_metadata "Gruppe3" ≠ (none, none) := by
  exact ⟨by decide, by decide⟩

/-- C8 (amended): the keyword may be followed by *optional* whitespace
before the digit run (`\s*`); abutting digit runs are matched too, and a
keyword with no following digit run yields no metadata. -/
theorem claim_C8_amended :
    extract_level_metadata "Gruppe3" = (some "3", some "Gruppe") ∧
    extract_level_metadata "Gruppe 3" = (some "3", some "Gruppe") ∧
    extract_level_metadata "Hauptgruppe1.2" = (some "1.2", some "Hauptgruppe") ∧
    extract_level_metadata "Untergruppe5.1" = (some "5.1", some "Untergruppe") ∧
    extract_level_metadata "Gruppe drei" = (none, none) := by
  refine ⟨by decide, by decide, by decide, by decide, by decide⟩

/-- C9 counterexample: the claim asserts byte-identical output even when
distinct nodes tie on the full composite key.  The children of `p` are
kept in a Python *set*, whose iteration order is hash-dependent and not
determined by `(N, E)`; the sort is stable, so tied children stay in set
order.  The two enumerations `c9OrdA`/`c9OrdB` list the same two-element
child set, yet the forests differ. -/
theorem claim_C9_counterexample :
    build_forestOrd c9Nodes c9Edges c9OrdA ≠ build_forestOrd c9Nodes c9Edges c9OrdB ∧
    c9OrdA "p" = ["x1", "x2"] ∧ c9OrdB "p" = ["x2", "x1"] ∧
    childrenOf c9Edges "p" = ["x1", "x2"] ∧
    node_sort_key (lookupNode c9Nodes "x1") = node_sort_key (lookupNode c9Nodes "x2") := by
  refine ⟨?_, by decide, by decide, by decide, by decide⟩
  intro h
  exact absurd
    (congrArg (Option.map (fun r => r.1.map (fun t => t.children.map TreeN.id))) h)
    (by decide)

/-- C9 (amended): the Forest Builder is a function of `(N, E)` — and so
two runs produce identical forests — whenever no two distinct siblings
tie on the full composite key; for any two duplicate-free enumerations
of the child sets the outputs coincide. -/
theorem claim_C9_amended :
    ∀ (nodes : List (String × NodeBase)) (edges : List (String × String))
      (ord₁ ord₂ : String → List String),
      validOrd edges ord₁ → validOrd edges ord₂ →
      (∀ p a b, a ∈ childrenOf edges p → b ∈ childrenOf edges p →
        node_sort_key (lookupNode nodes a) = node_sort_key (lookupNode nodes b) → a = b) →
      build_forestOrd nodes edges ord₁ = build_forestOrd nodes edges ord₂ :=
  fun nodes edges ord₁ ord₂ h₁ h₂ hinj => build_forestOrd_eq nodes edges ord₁ ord₂ h₁ h₂ hinj

/-- C9 witness: `claim_C9_amended` applied to a tie-free input with the
two swapped enumerations of the child set of `p`. -/
theorem claim_C9_witness :
    build_forestOrd w9Nodes w9Edges w9OrdA = build_forestOrd w9Nodes w9Edges w9OrdB := by
  apply claim_C9_amended w9Nodes w9Edges w9OrdA w9OrdB
  · intro p
    by_cases hp : p = "p"
    · subst hp
      refine ⟨by decide, ?_⟩
      intro x
      have h1 : w9OrdA "p" = ["wa", "wb"] := by decide
      have h2 : childrenOf w9Edges "p" = ["wa", "wb"] := by decide
      rw [h1, h2]
    · have h1 : w9OrdA p = childrenOf w9Edges p := by
        unfold w9OrdA
        rw [if_neg hp]
      rw [h1]
      exact ⟨nodup_childrenOf _ _, fun x => Iff.rfl⟩
  · intro p
    by_cases hp : p = "p"
    · subst hp
      refine ⟨by decide, ?_⟩
      intro x
      have h1 : w9OrdB "p" = ["wb", "wa"] := by decide
      have h2 : childrenOf w9Edges "p" = ["wa", "wb"] := by decide
      rw [h1, h2]
      constructor
      · intro hx
        rcases List.mem_cons.mp hx with h | h
        · rw [h]; exact List.mem_cons.mpr (Or.inr (List.mem_cons_self _ _))
        · rcases List.mem_cons.mp h with h' | h'
          · rw [h']; exact List.mem_cons_self _ _
          · cases h'
      · intro hx
        rcases List.mem_cons.mp hx with h | h
        · rw [h]; exact List.mem_cons.mpr (Or.inr (List.mem_cons_self _ _))
        · rcases List.mem_cons.mp h with h' | h'
          · rw [h']; exact List.mem_cons_self _ _
          · cases h'
    · have h1 : w9OrdB p = childrenOf w9Edges p := by
        unfold w9OrdB
        rw [if_neg hp]
      rw [h1]
      exact ⟨nodup_childrenOf _ _, fun x => Iff.rfl⟩
  · intro p a b ha hb hk
    have ha' := (mem_childrenOf _ _ _).mp ha
    have hb' := (mem_childrenOf _ _ _).mp hb
    have hwa : ∀ z : String, (z, p) ∈ w9Edges → (z = "wa" ∨ z = "wb") ∧ p = "p" := by
      intro z hz
      rcases List.mem_cons.mp hz with h | h
      · have h1 : z = "wa" ∧ p = "p" := by
          constructor
          · exact congrArg Prod.fst h
          · exact congrArg Prod.snd h
        exact ⟨Or.inl h1.1, h1.2⟩
      · rcases List.mem_cons.mp h with h' | h'
        · have h1 : z = "wb" ∧ p = "p" := by
            constructor
            · exact congrArg Prod.fst h'
            · exact congrArg Prod.snd h'
          exact ⟨Or.inr h1.1, h1.2⟩
        · cases h'
    rcases (hwa a ha').1 with h1 | h1 <;> rcases (hwa b hb').1 with h2 | h2
    · rw [h1, h2]
    · rw [h1, h2] at hk
      exact absurd hk (by decide)
    · rw [h1, h2] at hk
      exact absurd hk (by decide)
    · rw [h1, h2]

/-- C10: for every finite node mapping and edge list — cyclic,
self-looping or multi-parent alike — the depth-first renderer
terminates: the fuel chosen by `build_forest` (one more than the number
of distinct identities, a bound on the ancestor-path length) is always
sufficient, so the builder returns a result. -/
theorem claim_C10 :
    ∀ (nodes : List (String × NodeBase)) (edges : List (String × String)),
      (build_forest nodes edges).isSome = true := by
  intro nodes edges
  obtain ⟨f, s, h⟩ := build_forest_some nodes edges
  rw [h]
  rfl

